import Mathlib

/-!
# STG arenas of `tools/flang1/flang1exe/miscutil.c`

A shallow embedding of the storage-generic (STG) arena: bump allocation with
growth, zero-fill tracking, sidecars and the intrusive free list.  The hash
accumulator macros of `runtime/flangrti/hash.h` and the hash set and map declared
there follow the arena.

Conventions of the embedding.

* A C `int` is an `Int`; signed overflow is undefined in C and is outside the
  model, so arithmetic is exact.  Where a value is stored into memory as an
  `int` it is reduced to 32 bits (`int_bytes`).
* A heap block is the list of its bytes (naturals below 256), in address order.
  The allocator gives no guarantee about fresh bytes: every allocating
  function takes the content of fresh memory as an argument (`junk`).
* An access outside the block is undefined in C.  In the model a write outside
  the block is dropped and a read outside it yields 0; a statement about the
  content of an element (`elem_zero`) says that its bytes lie in the block.
* `sizeof(int)` is 4 and `size_t` has 64 bits; an `int` in memory is stored least
  significant byte first.
* The chain `stg, stg->stg_sidecar, stg->stg_sidecar->stg_sidecar, ...` is the
  head control block followed by the list of the control blocks behind it.
* `interr(msg, 0, 4)` ends the process; a function that reaches it returns
  `Except.error`.
-/

namespace Flang

/-! ## Data model -/

/-- Modelled from the spec: the fatal errors raised through `interr` (declared in
`error.h`, which is not part of the sources at hand).  The spec names three
kinds and says the process ends there. -/
inductive Fatal where
  | InvalidSize
  | TooSmallForFreelist
  | SidecarNotFound
  deriving DecidableEq

/-- Modelled from the spec: the `STG` control block (declared in a header that is
not part of the sources at hand), without its `stg_sidecar` link: the buffer
`stg_base` as the bytes of its heap block, and the integer fields. -/
structure STG where
  stg_base : List Nat
  stg_size : Int
  stg_dtsize : Int
  stg_avail : Int
  stg_free : Int
  stg_cleared : Int
  stg_name : String
  deriving DecidableEq

/-- An `STG *` with everything reachable from it: the control block `stg` and the
control blocks found by following `stg_sidecar` until the null pointer. -/
structure Arena where
  stg : STG
  stg_sidecar : List STG
  deriving DecidableEq

/-! ## Memory primitives -/

/-- The value of `sizeof(int)`. -/
def sizeof_int : Int := 4

/-- Conversion of an `int` to `size_t` (64 bits), as the comparison
`stg->stg_dtsize < sizeof(int)` performs it: a negative value wraps around. -/
def to_size_t (x : Int) : Int := if x < 0 then x + 2 ^ 64 else x

/-- Fresh block of `n` bytes from `sccalloc`; `junk` is what the memory holds. -/
def sccalloc (junk : Nat → Nat) (n : Int) : List Nat :=
  (List.range n.toNat).map (fun k => junk k % 256)

/-- Block of `n` bytes from `sccrelal`: the old bytes are kept as far as both
blocks reach, the bytes beyond them are what the memory holds (`junk`). -/
def sccrelal (p : List Nat) (n : Int) (junk : Nat → Nat) : List Nat :=
  (List.range n.toNat).map (fun k => p.getD k (junk k % 256))

/-- Effect of `memset(p + off, 0, len)` on the block `p`. -/
def memset0 (p : List Nat) (off len : Int) : List Nat :=
  (List.range p.length).map
    (fun (k : Nat) => if off ≤ (k : Int) ∧ (k : Int) < off + len then 0 else p.getD k 0)

/-- The four bytes of an `int`, least significant first. -/
def int_bytes (v : Int) : List Nat :=
  let u := (v % 2 ^ 32).toNat
  [u % 256, u / 256 % 256, u / 65536 % 256, u / 16777216 % 256]

/-- Effect of `*(int *)(p + off) = v` on the block `p`. -/
def store_int (p : List Nat) (off : Int) (v : Int) : List Nat :=
  (List.range p.length).map
    (fun (k : Nat) => if off ≤ (k : Int) ∧ (k : Int) < off + 4
              then (int_bytes v).getD ((k : Int) - off).toNat 0 else p.getD k 0)

/-- Value of `*(int *)(p + off)`. -/
def load_int (p : List Nat) (off : Int) : Int :=
  let u : Int := (p.getD off.toNat 0 : Nat) + 256 * (p.getD (off + 1).toNat 0 : Nat)
    + 65536 * (p.getD (off + 2).toNat 0 : Nat) + 16777216 * (p.getD (off + 3).toNat 0 : Nat)
  if u < 2 ^ 31 then u else u - 2 ^ 32

/-! ## The arena operations -/

/-- Source `stg_alloc_base`: the control block is zeroed (so `stg_free` is 0 and
the sidecar link is null), then the fields are set and the buffer allocated. -/
def stg_alloc_base (dtsize size : Int) (name : String) (junk : Nat → Nat) :
    Except Fatal STG :=
  if dtsize > 0 ∧ size > 0 then
    .ok { stg_base := sccalloc junk (dtsize * size)
          stg_size := size
          stg_dtsize := dtsize
          stg_avail := 1
          stg_free := 0
          stg_cleared := 0
          stg_name := name }
  else
    .error .InvalidSize

/-- Source `stg_clear`. -/
def stg_clear (stg : STG) (r n : Int) : STG :=
  if r ≥ 0 ∧ n > 0 then
    let stg1 := { stg with stg_base := memset0 stg.stg_base (r * stg.stg_dtsize) (n * stg.stg_dtsize) }
    if r = stg1.stg_cleared then
      { stg1 with stg_cleared := stg1.stg_cleared + n }
    else if r = 0 ∧ n > stg1.stg_cleared then
      { stg1 with stg_cleared := n }
    else stg1
  else stg

/-- Source `stg_clear_all`. -/
def stg_clear_all (stg : STG) : STG :=
  stg_clear stg 0 stg.stg_avail

/-- Source `stg_alloc`. -/
def stg_alloc (dtsize size : Int) (name : String) (junk : Nat → Nat) :
    Except Fatal Arena :=
  match stg_alloc_base dtsize size name junk with
  | .error e => .error e
  | .ok stg => .ok { stg := stg_clear stg 0 1, stg_sidecar := [] }

/-- Body `f k thisstg` applied to the control blocks of a sidecar list, the first of
which is number `k` of its chain. -/
def for_sidecars (f : Nat → STG → STG) : Nat → List STG → List STG
  | _, [] => []
  | k, t :: ts => f k t :: for_sidecars f (k + 1) ts

/-- The loop `for (thisstg = stg; thisstg; thisstg = thisstg->stg_sidecar)`: the
body runs on the head (number 0) and on every sidecar behind it. -/
def for_chain (f : Nat → STG → STG) (a : Arena) : Arena :=
  { stg := f 0 a.stg, stg_sidecar := for_sidecars f 1 a.stg_sidecar }

/-- Source `stg_need`; `junk k` is what the memory of the reallocated block of
chain member `k` holds. -/
def stg_need (a : Arena) (junk : Nat → Nat → Nat) : Arena :=
  let a1 : Arena :=
    if a.stg.stg_cleared > a.stg.stg_avail then
      { a with stg := { a.stg with stg_cleared := a.stg.stg_avail } }
    else a
  let a2 : Arena :=
    if a1.stg.stg_avail > a1.stg.stg_size then
      let newsize := (a1.stg.stg_avail - 1) * 2
      for_chain (fun k thisstg =>
        { thisstg with
            stg_size := newsize
            stg_base := sccrelal thisstg.stg_base (newsize * thisstg.stg_dtsize) (junk k) }) a1
    else a1
  if a2.stg.stg_avail > a2.stg.stg_cleared then
    for_chain (fun _ thisstg =>
      stg_clear thisstg thisstg.stg_cleared (thisstg.stg_avail - thisstg.stg_cleared)) a2
  else a2

/-- Source `stg_alloc_sidecar`: the new sidecar is put at the front of the list of
sidecars of the base. -/
def stg_alloc_sidecar (basestg : Arena) (dtsize : Int) (name : String)
    (junk : Nat → Nat) : Except Fatal Arena :=
  match stg_alloc_base dtsize basestg.stg.stg_size name junk with
  | .error e => .error e
  | .ok stg =>
    let stg1 := { stg with stg_avail := basestg.stg.stg_avail }
    let stg2 := stg_clear stg1 0 stg1.stg_avail
    .ok { basestg with stg_sidecar := stg2 :: basestg.stg_sidecar }

/-- Source `stg_next`: the returned index and the arena afterwards. -/
def stg_next (a : Arena) (n : Int) (junk : Nat → Nat → Nat) : Int × Arena :=
  let r := a.stg.stg_avail
  let a1 : Arena :=
    if a.stg.stg_cleared > r then { a with stg := { a.stg with stg_cleared := r } } else a
  let a2 : Arena := { a1 with stg := { a1.stg with stg_avail := a1.stg.stg_avail + n } }
  if a2.stg.stg_avail > a2.stg.stg_size then
    (r, stg_need a2 junk)
  else
    (r, { a2 with stg := stg_clear a2.stg a2.stg.stg_cleared (a2.stg.stg_avail - a2.stg.stg_cleared) })

/-- Source `stg_next_freelist`: the returned index and the arena afterwards. -/
def stg_next_freelist (a : Arena) (junk : Nat → Nat → Nat) : Except Fatal (Int × Arena) :=
  let r := a.stg.stg_free
  if r = 0 then
    let res := stg_next a 1 junk
    .ok (res.1, { res.2 with stg := stg_clear res.2.stg res.1 1 })
  else if to_size_t a.stg.stg_dtsize < sizeof_int then
    .error .TooSmallForFreelist
  else
    let stg1 := { a.stg with stg_free := load_int a.stg.stg_base (r * a.stg.stg_dtsize) }
    .ok (r, { a with stg := stg_clear stg1 r 1 })

/-- Source `stg_add_freelist`. -/
def stg_add_freelist (a : Arena) (r : Int) : Except Fatal Arena :=
  if to_size_t a.stg.stg_dtsize < sizeof_int then
    .error .TooSmallForFreelist
  else
    let stg1 := stg_clear a.stg r 1
    .ok { a with stg :=
      { stg1 with
          stg_base := store_int stg1.stg_base (r * stg1.stg_dtsize) stg1.stg_free
          stg_free := r } }

/-! ## Observations -/

/-- Every byte of element `e` of the buffer lies in the block and is zero. -/
def elem_zero (stg : STG) (e : Int) : Prop :=
  0 ≤ e ∧ ∀ j, j < stg.stg_dtsize.toNat →
    stg.stg_base[(e * stg.stg_dtsize).toNat + j]? = some 0

instance (stg : STG) (e : Int) : Decidable (elem_zero stg e) := by
  unfold elem_zero; infer_instance

/-- The buffer holds exactly `stg_size` elements of `stg_dtsize` bytes, as
`stg_alloc_base` and `stg_need` allocate it. -/
def buffer_ok (stg : STG) : Prop :=
  stg.stg_base.length = (stg.stg_size * stg.stg_dtsize).toNat

instance (stg : STG) : Decidable (buffer_ok stg) := by
  unfold buffer_ok; infer_instance

/-- The value is a C `int` (32 bits, two's complement). -/
def is_int (v : Int) : Prop := -2 ^ 31 ≤ v ∧ v < 2 ^ 31

instance (v : Int) : Decidable (is_int v) := by
  unfold is_int; infer_instance

/-- The control block `stg_alloc_base` leaves behind for valid sizes. -/
def fresh_stg (dtsize size : Int) (name : String) (junk : Nat → Nat) : STG :=
  { stg_base := sccalloc junk (dtsize * size)
    stg_size := size
    stg_dtsize := dtsize
    stg_avail := 1
    stg_free := 0
    stg_cleared := 0
    stg_name := name }

/-- The arena of the end-to-end scenario: element size 8, capacity 2, the fresh
block full of 7s. -/
def scenario_arena : Arena :=
  { stg := stg_clear (fresh_stg 8 2 "sym" (fun _ => 7)) 0 1, stg_sidecar := [] }

/-- Content of reallocated memory in the scenarios: every byte is 9. -/
def scenario_junk : Nat → Nat → Nat := fun _ _ => 9

/-- The scenario arena after `stg_next` with count 3. -/
def scenario_base : Arena := (stg_next scenario_arena 3 scenario_junk).2

/-- The sidecar of element size 4 that `stg_alloc_sidecar` builds for `scenario_base`,
the fresh block full of 7s. -/
def scenario_sidecar : STG :=
  stg_clear
    { fresh_stg 4 scenario_base.stg.stg_size "side" (fun _ => 7) with
        stg_avail := scenario_base.stg.stg_avail }
    0 scenario_base.stg.stg_avail

/-- The scenario arena with its sidecar attached. -/
def scenario_linked : Arena := { scenario_base with stg_sidecar := [scenario_sidecar] }

/-- An arena of element size 2 and capacity 2 with an empty free list. -/
def small_arena : Arena :=
  { stg :=
      { stg_base := [0, 0, 5, 5], stg_size := 2, stg_dtsize := 2, stg_avail := 1,
        stg_free := 0, stg_cleared := 1, stg_name := "small" }
    stg_sidecar := [] }

/-- Successive `stg_add_freelist` calls with the indices `is`, in that order. -/
def stg_add_freelist_seq : Arena → List Int → Except Fatal Arena
  | a, [] => .ok a
  | a, i :: is =>
    match stg_add_freelist a i with
    | .error e => .error e
    | .ok b => stg_add_freelist_seq b is

/-- Successive `stg_next_freelist` calls, `k` of them: the returned indices in call
order and the arena afterwards; `junk c` is what fresh memory holds in call `c`. -/
def stg_next_freelist_seq : Arena → Nat → (Nat → Nat → Nat → Nat) →
    Except Fatal (List Int × Arena)
  | a, 0, _ => .ok ([], a)
  | a, k + 1, junk =>
    match stg_next_freelist a (junk 0) with
    | .error e => .error e
    | .ok res =>
      match stg_next_freelist_seq res.2 k (fun c => junk (c + 1)) with
      | .error e => .error e
      | .ok rest => .ok (res.1 :: rest.1, rest.2)

/-- An arena of element size 8 and capacity 6 whose elements hold 7s, with element 5
at the head of the free list. -/
def freelist_arena : Arena :=
  { stg :=
      { stg_base := List.replicate 48 7, stg_size := 6, stg_dtsize := 8, stg_avail := 6,
        stg_free := 5, stg_cleared := 0, stg_name := "list" }
    stg_sidecar := [] }

/-! ## Hash accumulator of `runtime/flangrti/hash.h` -/

/-- The number of values of `hash_value_t`, which is `unsigned`: 32 bits. -/
def hash_value_range : Nat := 2 ^ 32

/-- Source `HASH_ACCU_INIT`: the field `a` of a fresh accumulator. -/
def HASH_ACCU_INIT : Nat := 0

/-- Source `HASH_ACCU_ADD`: the field `a` of the accumulator after the three
assignments, in 32-bit unsigned arithmetic; `data` is cast to `hash_value_t`. -/
def HASH_ACCU_ADD (a data : Nat) : Nat :=
  let a1 := (a + data % 2 ^ 32) % 2 ^ 32
  let a2 := (a1 + (a1 <<< 10) % 2 ^ 32) % 2 ^ 32
  a2 ^^^ (a2 >>> 6)

/-- Source `HASH_ACCU_FINISH`: the field `a` after the three assignments. -/
def HASH_ACCU_FINISH (a : Nat) : Nat :=
  let a1 := (a + (a <<< 3) % 2 ^ 32) % 2 ^ 32
  let a2 := a1 ^^^ (a1 >>> 11)
  (a2 + (a2 <<< 15) % 2 ^ 32) % 2 ^ 32

/-- Source `HASH_ACCU_VALUE`. -/
def HASH_ACCU_VALUE (a : Nat) : Nat := (a + 0) % 2 ^ 32

/-- The hash function the header describes: the accumulator starts at
`HASH_ACCU_INIT`, every field is added in order, then `HASH_ACCU_FINISH` and
`HASH_ACCU_VALUE`. -/
def hash_fields (fields : List Nat) : Nat :=
  HASH_ACCU_VALUE (HASH_ACCU_FINISH (fields.foldl HASH_ACCU_ADD HASH_ACCU_INIT))

/-! ## Deleting a sidecar -/

/-- Source `hash_key_t`: a key is an uninterpreted pointer, here its value. -/
abbrev hash_key_t := Nat

/-- Source `hash_data_t`: a data pointer, here its value. -/
abbrev hash_data_t := Nat

/-- Source `hash_functions_t`: the hash function and the equality test bound to a
container. -/
structure hash_functions_t where
  hash : hash_key_t → Nat
  equals : hash_key_t → hash_key_t → Bool

/-- Modelled from the spec: the predefined functions for directly hashed keys
(defined in `hash.c`, which is not part of the sources at hand): the keys are
compared by value, with no indirection. -/
def hash_functions_direct : hash_functions_t :=
  { hash := fun k => k % 2 ^ 32, equals := fun a b => a == b }

/-- Modelled from the spec: the hash set behind `hashset_t` (defined in `hash.c`, which
is not part of the sources at hand): the bound functions and the collection of
stored keys. -/
structure hashset_t where
  functions : hash_functions_t
  keys : List hash_key_t

/-- Modelled from the spec: `hashset_alloc` (in `hash.c`): an empty set bound to the
functions. -/
def hashset_alloc (f : hash_functions_t) : hashset_t := { functions := f, keys := [] }

/-- Modelled from the spec: `hashset_size` (in `hash.c`): the count of entries. -/
def hashset_size (h : hashset_t) : Nat := h.keys.length

/-- Modelled from the spec: `hashset_lookup` (in `hash.c`): the stored key equal, per
the bound equality function, to `key`, or the absent sentinel (`none`) if none. -/
def hashset_lookup (h : hashset_t) (key : hash_key_t) : Option hash_key_t :=
  h.keys.find? (fun stored => h.functions.equals key stored)

/-- Modelled from the spec: `hashset_insert` (in `hash.c`): inserts unconditionally. -/
def hashset_insert (h : hashset_t) (key : hash_key_t) : hashset_t :=
  { h with keys := h.keys ++ [key] }

/-- Modelled from the spec: the hash map behind `hashmap_t` (defined in `hash.c`, which
is not part of the sources at hand): the bound functions and the stored keys, each
with its data. -/
structure hashmap_t where
  functions : hash_functions_t
  entries : List (hash_key_t × hash_data_t)

/-- Modelled from the spec: `hashmap_size` (in `hash.c`): the count of entries. -/
def hashmap_size (m : hashmap_t) : Nat := m.entries.length

/-- Modelled from the spec: `hashmap_lookup` (in `hash.c`): the stored key equal, per
the bound equality function, to `key`, with its data, or `none` if none. -/
def hashmap_lookup (m : hashmap_t) (key : hash_key_t) : Option (hash_key_t × hash_data_t) :=
  m.entries.find? (fun stored => m.functions.equals key stored.1)

/-- Modelled from the spec: `hashmap_insert` (in `hash.c`): inserts unconditionally. -/
def hashmap_insert (m : hashmap_t) (key : hash_key_t) (data : hash_data_t) : hashmap_t :=
  { m with entries := m.entries ++ [(key, data)] }

/-- The arena states reachable from `stg_alloc` by the arena operations:
`stg_next` with a count that is not negative, `stg_clear` of a range that ends
within the capacity, `stg_clear_all`, `stg_next_freelist`, and `stg_add_freelist` of
an index in `[1, stg_avail)`.  The list records the indices released by
`stg_add_freelist` and not since returned by `stg_next_freelist`. -/
inductive Reachable : Arena → List Int → Prop
  | alloc (dtsize size : Int) (name : String) (junk : Nat → Nat) (a : Arena) :
      stg_alloc dtsize size name junk = .ok a → Reachable a []
  | next (a : Arena) (released : List Int) (count : Int) (junk : Nat → Nat → Nat) :
      Reachable a released → count ≥ 0 → Reachable (stg_next a count junk).2 released
  | clear (a : Arena) (released : List Int) (start count : Int) :
      Reachable a released → start + count ≤ a.stg.stg_size →
      Reachable { a with stg := stg_clear a.stg start count } released
  | clear_all (a : Arena) (released : List Int) :
      Reachable a released → Reachable { a with stg := stg_clear_all a.stg } released
  | next_freelist (a : Arena) (released : List Int) (junk : Nat → Nat → Nat) (r : Int)
      (b : Arena) :
      Reachable a released → stg_next_freelist a junk = .ok (r, b) →
      Reachable b (released.filter (fun g => decide (g ≠ r)))
  | add_freelist (a : Arena) (released : List Int) (i : Int) (b : Arena) :
      Reachable a released → 1 ≤ i → i < a.stg.stg_avail →
      stg_add_freelist a i = .ok b → Reachable b (i :: released)

/-- What is known of element `e` of the cleared prefix: it is zero unless it is
released, and where an element can hold a link its first word is an index below
`stg_avail`. -/
def elem_ok (stg : STG) (released : List Int) (e : Int) : Prop :=
  (e ∉ released → elem_zero stg e) ∧
  (stg.stg_dtsize ≥ 4 →
    0 ≤ load_int stg.stg_base (e * stg.stg_dtsize) ∧
    load_int stg.stg_base (e * stg.stg_dtsize) < stg.stg_avail)

/-- Invariant of the reachable states, for the head of the chain. -/
structure arena_inv (a : Arena) (released : List Int) : Prop where
  dtsize_pos : a.stg.stg_dtsize ≥ 1
  buffer : buffer_ok a.stg
  avail_pos : 1 ≤ a.stg.stg_avail
  avail_le : a.stg.stg_avail ≤ a.stg.stg_cleared
  cleared_le : a.stg.stg_cleared ≤ a.stg.stg_size
  free_nonneg : 0 ≤ a.stg.stg_free
  free_lt : a.stg.stg_free < a.stg.stg_avail
  released_lt : ∀ g ∈ released, g < a.stg.stg_avail
  elems : ∀ e, 0 ≤ e → e < a.stg.stg_cleared → elem_ok a.stg released e

/-- The arena `stg_alloc` returns for element size 8 and capacity 4, the fresh block
full of 7s. -/
def release_arena0 : Arena :=
  { stg := stg_clear (fresh_stg 8 4 "sym" (fun _ => 7)) 0 1, stg_sidecar := [] }

/-- The arena `release_arena0` after `stg_next` with count 2 and the release of
element 1: the link stored in element 1 is 0. -/
def release_arena1 : Arena :=
  { stg :=
      { stg_base := List.replicate 24 0 ++ List.replicate 8 7, stg_size := 4,
        stg_dtsize := 8, stg_avail := 3, stg_free := 1, stg_cleared := 3,
        stg_name := "sym" }
    stg_sidecar := [] }

/-- The arena `release_arena1` after the release of element 2: the first word of
element 2 holds the link 1. -/
def released_arena : Arena :=
  { stg :=
      { stg_base := List.replicate 16 0 ++ [1, 0, 0, 0, 0, 0, 0, 0] ++ List.replicate 8 7,
        stg_size := 4, stg_dtsize := 8, stg_avail := 3, stg_free := 2, stg_cleared := 3,
        stg_name := "sym" }
    stg_sidecar := [] }

theorem get_map_range (n : Nat) (f : Nat → Nat) (k : Nat) :
    ((List.range n).map f)[k]? = if k < n then some (f k) else none := by
  by_cases h : k < n
  · simp [h, List.getElem?_eq_getElem]
  · have hk : n ≤ k := by omega
    simp [h, hk]

theorem length_memset0 (p : List Nat) (off len : Int) :
    (memset0 p off len).length = p.length := by
  simp [memset0]

theorem get_memset0 (p : List Nat) (off len : Int) (k : Nat) :
    (memset0 p off len)[k]? =
      if k < p.length then
        some (if off ≤ (k : Int) ∧ (k : Int) < off + len then 0 else p.getD k 0)
      else none := by
  simp only [memset0, get_map_range]

theorem length_sccrelal (p : List Nat) (n : Int) (junk : Nat → Nat) :
    (sccrelal p n junk).length = n.toNat := by
  simp [sccrelal]

theorem length_sccalloc (junk : Nat → Nat) (n : Int) :
    (sccalloc junk n).length = n.toNat := by
  simp [sccalloc]

/-! ## Lemmas on `stg_clear` -/

@[simp] theorem stg_clear_size (stg : STG) (r n : Int) :
    (stg_clear stg r n).stg_size = stg.stg_size := by
  unfold stg_clear; dsimp only; split_ifs <;> rfl

@[simp] theorem stg_clear_dtsize (stg : STG) (r n : Int) :
    (stg_clear stg r n).stg_dtsize = stg.stg_dtsize := by
  unfold stg_clear; dsimp only; split_ifs <;> rfl

@[simp] theorem stg_clear_avail (stg : STG) (r n : Int) :
    (stg_clear stg r n).stg_avail = stg.stg_avail := by
  unfold stg_clear; dsimp only; split_ifs <;> rfl

@[simp] theorem stg_clear_free (stg : STG) (r n : Int) :
    (stg_clear stg r n).stg_free = stg.stg_free := by
  unfold stg_clear; dsimp only; split_ifs <;> rfl

theorem stg_clear_base (stg : STG) (r n : Int) (h : r ≥ 0 ∧ n > 0) :
    (stg_clear stg r n).stg_base =
      memset0 stg.stg_base (r * stg.stg_dtsize) (n * stg.stg_dtsize) := by
  unfold stg_clear; rw [if_pos h]; dsimp only; split_ifs <;> rfl

theorem stg_clear_length (stg : STG) (r n : Int) :
    (stg_clear stg r n).stg_base.length = stg.stg_base.length := by
  unfold stg_clear; dsimp only; split_ifs <;> simp [length_memset0]

/-- Bytes of element `e` with `lo ≤ e < hi` lie between the bytes of `lo` and `hi`. -/
theorem elem_bounds (e lo hi dt : Int) (j : Nat) (hlo : lo ≤ e) (hhi : e < hi)
    (hj : (j : Int) < dt) :
    lo * dt ≤ e * dt + j ∧ e * dt + j < hi * dt := by
  have hdt : 0 < dt := by omega
  constructor
  · have := mul_le_mul_of_nonneg_right hlo hdt.le
    omega
  · have h1 : e + 1 ≤ hi := by omega
    have := mul_le_mul_of_nonneg_right h1 hdt.le
    have h2 : (e + 1) * dt = e * dt + dt := by ring
    omega

/-- Clearing `[r, r+n)` leaves every element of that range zero, when the range
lies in the block. -/
theorem stg_clear_zero (stg : STG) (r n e : Int) (hr : 0 ≤ r) (hn : 0 < n)
    (he1 : r ≤ e) (he2 : e < r + n)
    (hlen : ((r + n) * stg.stg_dtsize).toNat ≤ stg.stg_base.length) :
    elem_zero (stg_clear stg r n) e := by
  refine ⟨by omega, fun j hj => ?_⟩
  rw [stg_clear_base stg r n ⟨hr, hn⟩, get_memset0, stg_clear_dtsize]
  rw [stg_clear_dtsize] at hj
  have hj' : (j : Int) < stg.stg_dtsize := by omega
  obtain ⟨b1, b2⟩ := elem_bounds e r (r + n) stg.stg_dtsize j he1 he2 hj'
  have hdt : 0 < stg.stg_dtsize := by omega
  have he0 : 0 ≤ e * stg.stg_dtsize := mul_nonneg (by omega) hdt.le
  have hcast : (((e * stg.stg_dtsize).toNat + j : Nat) : Int) = e * stg.stg_dtsize + j := by
    omega
  have hin : (e * stg.stg_dtsize).toNat + j < stg.stg_base.length := by omega
  rw [if_pos hin, hcast]
  have h3 : (r + n) * stg.stg_dtsize = r * stg.stg_dtsize + n * stg.stg_dtsize := by ring
  rw [if_pos ⟨b1, by omega⟩]

/-! ## Creation -/

theorem stg_alloc_base_ok (dtsize size : Int) (name : String) (junk : Nat → Nat)
    (h : dtsize > 0 ∧ size > 0) :
    stg_alloc_base dtsize size name junk = .ok (fresh_stg dtsize size name junk) := by
  simp only [stg_alloc_base, if_pos h, fresh_stg]

theorem stg_alloc_ok (dtsize size : Int) (name : String) (junk : Nat → Nat)
    (h : dtsize > 0 ∧ size > 0) :
    stg_alloc dtsize size name junk =
      .ok { stg := stg_clear (fresh_stg dtsize size name junk) 0 1, stg_sidecar := [] } := by
  simp only [stg_alloc, stg_alloc_base_ok dtsize size name junk h]

theorem stg_need_avail (a : Arena) (junk : Nat → Nat → Nat) :
    (stg_need a junk).stg.stg_avail = a.stg.stg_avail := by
  unfold stg_need for_chain; dsimp only; split_ifs <;> simp

theorem stg_need_size (a : Arena) (junk : Nat → Nat → Nat) :
    (stg_need a junk).stg.stg_size =
      if a.stg.stg_avail > a.stg.stg_size then (a.stg.stg_avail - 1) * 2
      else a.stg.stg_size := by
  unfold stg_need for_chain; dsimp only; split_ifs <;> simp

theorem stg_need_dtsize (a : Arena) (junk : Nat → Nat → Nat) :
    (stg_need a junk).stg.stg_dtsize = a.stg.stg_dtsize := by
  unfold stg_need for_chain; dsimp only; split_ifs <;> simp

theorem stg_next_fst (a : Arena) (n : Int) (junk : Nat → Nat → Nat) :
    (stg_next a n junk).1 = a.stg.stg_avail := by
  unfold stg_next; dsimp only; split_ifs <;> rfl

theorem stg_next_avail (a : Arena) (n : Int) (junk : Nat → Nat → Nat) :
    (stg_next a n junk).2.stg.stg_avail = a.stg.stg_avail + n := by
  unfold stg_next; dsimp only; split_ifs <;> simp [stg_need_avail]

theorem stg_next_size (a : Arena) (n : Int) (junk : Nat → Nat → Nat) :
    (stg_next a n junk).2.stg.stg_size =
      if a.stg.stg_avail + n > a.stg.stg_size then (a.stg.stg_avail + n - 1) * 2
      else a.stg.stg_size := by
  unfold stg_next; dsimp only; split_ifs <;> simp_all [stg_need_size]

theorem stg_next_dtsize (a : Arena) (n : Int) (junk : Nat → Nat → Nat) :
    (stg_next a n junk).2.stg.stg_dtsize = a.stg.stg_dtsize := by
  unfold stg_next; dsimp only; split_ifs <;> simp [stg_need_dtsize]

/-- C3: when `stg_next` on an arena with `stg_size ≥ 1` pushes `stg_avail` past
`stg_size`, the new `stg_size` is `2 * (new stg_avail - 1)`, at least twice the old
`stg_size` and at least the new `stg_avail`; when it does not, `stg_size` is
unchanged. -/
theorem stg_next_growth (a : Arena) (count : Int) (junk : Nat → Nat → Nat)
    (hsize : a.stg.stg_size ≥ 1) :
    (a.stg.stg_avail + count > a.stg.stg_size →
      (stg_next a count junk).2.stg.stg_size
          = 2 * ((stg_next a count junk).2.stg.stg_avail - 1) ∧
        (stg_next a count junk).2.stg.stg_size ≥ 2 * a.stg.stg_size ∧
        (stg_next a count junk).2.stg.stg_size ≥ (stg_next a count junk).2.stg.stg_avail) ∧
    (¬ a.stg.stg_avail + count > a.stg.stg_size →
      (stg_next a count junk).2.stg.stg_size = a.stg.stg_size) := by
  rw [stg_next_size, stg_next_avail]
  constructor
  · intro h
    rw [if_pos h]
    omega
  · intro h
    rw [if_neg h]

/-- Witness of C3 on the scenario arena: `stg_next` with count 3 grows it from
capacity 2 to capacity 6. -/
theorem stg_next_growth_witness :
    scenario_arena.stg.stg_size ≥ 1 ∧
    (stg_next scenario_arena 3 scenario_junk).2.stg.stg_size = 6 ∧
    (stg_next scenario_arena 3 scenario_junk).2.stg.stg_size
      = 2 * ((stg_next scenario_arena 3 scenario_junk).2.stg.stg_avail - 1) := by
  have h := (stg_next_growth scenario_arena 3 scenario_junk (by decide)).1 (by decide)
  exact ⟨by decide, by decide, h.1⟩

/-- C1, the code at the end-to-end scenario: after `stg_alloc_sidecar` the sidecar has
the capacity 6 and length 4 of the base; `stg_next` with count 3 on the base leaves
base capacity 12 and length 7 but sidecar capacity 12 and length 4, and `stg_next`
with count 1 leaves base length 5 and sidecar length 4. -/
theorem stg_next_sidecar_avail_stale :
    stg_alloc_sidecar scenario_base 4 "side" (fun _ => 7) = .ok scenario_linked ∧
    (scenario_linked.stg.stg_size, scenario_linked.stg.stg_avail) = (6, 4) ∧
    scenario_linked.stg_sidecar.map (fun s => (s.stg_size, s.stg_avail)) = [(6, 4)] ∧
    ((stg_next scenario_linked 3 scenario_junk).2.stg.stg_size,
      (stg_next scenario_linked 3 scenario_junk).2.stg.stg_avail) = (12, 7) ∧
    (stg_next scenario_linked 3 scenario_junk).2.stg_sidecar.map
      (fun s => (s.stg_size, s.stg_avail)) = [(12, 4)] ∧
    ((stg_next scenario_linked 1 scenario_junk).2.stg.stg_size,
      (stg_next scenario_linked 1 scenario_junk).2.stg.stg_avail) = (6, 5) ∧
    (stg_next scenario_linked 1 scenario_junk).2.stg_sidecar.map
      (fun s => (s.stg_size, s.stg_avail)) = [(6, 4)] := by
  refine ⟨rfl, ?_, ?_, ?_, ?_, ?_, ?_⟩ <;> decide

/-- C9, the code at the end-to-end scenario: `stg_next` with count 3 on the base
reserves the indices 4, 5, 6 and reallocates; element 4 of the sidecar still holds
what the allocator left there and element 6 holds what the reallocation left there.
`stg_next` with count 1 reserves index 4 without reallocating, and element 4 of the
sidecar is not zero either. -/
theorem stg_next_sidecar_not_cleared :
    (stg_next scenario_linked 3 scenario_junk).1 = 4 ∧
    (stg_next scenario_linked 3 scenario_junk).2.stg_sidecar.map
      (fun s => (decide (elem_zero s 4), decide (elem_zero s 6))) = [(false, false)] ∧
    (stg_next scenario_linked 3 scenario_junk).2.stg_sidecar.map
      (fun s => s.stg_base.drop 16) =
        [[7, 7, 7, 7, 7, 7, 7, 7, 9, 9, 9, 9, 9, 9, 9, 9, 9, 9, 9, 9, 9, 9, 9, 9,
          9, 9, 9, 9, 9, 9, 9, 9]] ∧
    (stg_next scenario_linked 1 scenario_junk).1 = 4 ∧
    (stg_next scenario_linked 1 scenario_junk).2.stg_sidecar.map
      (fun s => decide (elem_zero s 4)) = [false] := by
  refine ⟨?_, ?_, ?_, ?_, ?_⟩ <;> decide

/-! ## Free list: element size -/

/-- C10 as stated fails: `small_arena` has element size 2, below `sizeof(int)`, and an
empty free list; `stg_next_freelist` returns index 1 and reports no error. -/
theorem stg_next_freelist_small_empty :
    small_arena.stg.stg_dtsize < sizeof_int ∧ small_arena.stg.stg_free = 0 ∧
    (stg_next_freelist small_arena scenario_junk).toOption.map Prod.fst = some 1 ∧
    stg_next_freelist small_arena scenario_junk ≠ .error .TooSmallForFreelist := by
  refine ⟨by decide, by decide, by decide, ?_⟩
  intro h
  have : (stg_next_freelist small_arena scenario_junk).toOption.map Prod.fst = none := by
    rw [h]; rfl
  revert this
  decide

/-- C10, amended: on an arena whose element size is below `sizeof(int)`,
`stg_add_freelist` reports `TooSmallForFreelist` for every index and every
`stg_free`, and `stg_next_freelist` reports it exactly when `stg_free` is not 0; with
`stg_free = 0` it returns what `stg_next` with count 1 returns. -/
theorem freelist_too_small (a : Arena) (r : Int) (junk : Nat → Nat → Nat)
    (h0 : 0 ≤ a.stg.stg_dtsize) (hsmall : a.stg.stg_dtsize < sizeof_int) :
    stg_add_freelist a r = .error .TooSmallForFreelist ∧
    (stg_next_freelist a junk = .error .TooSmallForFreelist ↔ a.stg.stg_free ≠ 0) ∧
    (a.stg.stg_free = 0 →
      ∃ b, stg_next_freelist a junk = .ok ((stg_next a 1 junk).1, b)) := by
  have hs : to_size_t a.stg.stg_dtsize < sizeof_int := by
    unfold to_size_t; rw [if_neg (by omega)]; exact hsmall
  refine ⟨by simp only [stg_add_freelist, if_pos hs], ?_, ?_⟩
  · constructor
    · intro h hf
      simp [stg_next_freelist, hf] at h
    · intro hf
      simp only [stg_next_freelist, if_neg hf, if_pos hs]
  · intro hf
    exact ⟨{ (stg_next a 1 junk).2 with
        stg := stg_clear (stg_next a 1 junk).2.stg (stg_next a 1 junk).1 1 },
      by simp only [stg_next_freelist, if_pos hf]⟩

/-- Witness of the amended C10 on `small_arena`. -/
theorem freelist_too_small_witness :
    small_arena.stg.stg_dtsize < sizeof_int ∧
    stg_add_freelist small_arena 1 = .error .TooSmallForFreelist ∧
    (stg_next_freelist small_arena scenario_junk = .error .TooSmallForFreelist ↔
      small_arena.stg.stg_free ≠ 0) := by
  have h := freelist_too_small small_arena 1 scenario_junk (by decide) (by decide)
  exact ⟨by decide, h.1, h.2.1⟩

/-! ## Free list: links stored in the elements -/

theorem length_store_int (p : List Nat) (off v : Int) :
    (store_int p off v).length = p.length := by
  simp [store_int]

theorem getD_memset0 (p : List Nat) (off len : Int) (k : Nat) :
    (memset0 p off len).getD k 0 =
      if off ≤ (k : Int) ∧ (k : Int) < off + len then 0 else p.getD k 0 := by
  rw [List.getD_eq_getElem?_getD, get_memset0]
  by_cases hk : k < p.length
  · rw [if_pos hk]; rfl
  · rw [if_neg hk]
    have : p.getD k 0 = 0 := by
      rw [List.getD_eq_getElem?_getD, List.getElem?_eq_none (by omega)]; rfl
    rw [this]; simp

theorem getD_store_int (p : List Nat) (off v : Int) (k : Nat) :
    (store_int p off v).getD k 0 =
      if k < p.length ∧ off ≤ (k : Int) ∧ (k : Int) < off + 4
      then (int_bytes v).getD ((k : Int) - off).toNat 0 else p.getD k 0 := by
  rw [List.getD_eq_getElem?_getD]
  simp only [store_int, get_map_range]
  by_cases hk : k < p.length
  · rw [if_pos hk]
    by_cases hr : off ≤ (k : Int) ∧ (k : Int) < off + 4
    · rw [if_pos hr, if_pos ⟨hk, hr⟩]; rfl
    · rw [if_neg hr, if_neg (fun h => hr h.2)]; rfl
  · rw [if_neg hk, if_neg (fun h => hk h.1)]
    rw [List.getD_eq_getElem?_getD, List.getElem?_eq_none (by omega)]

/-- An `int` written into the block is read back unchanged. -/
theorem load_store_int (p : List Nat) (off v : Int) (hoff : 0 ≤ off)
    (hlen : off.toNat + 4 ≤ p.length) (hv : is_int v) :
    load_int (store_int p off v) off = v := by
  unfold is_int at hv
  have e1 : (off + 1).toNat = off.toNat + 1 := by omega
  have e2 : (off + 2).toNat = off.toNat + 2 := by omega
  have e3 : (off + 3).toNat = off.toNat + 3 := by omega
  have c0 : ((off.toNat : Nat) : Int) - off = 0 := by omega
  have c1 : ((off.toNat + 1 : Nat) : Int) - off = 1 := by omega
  have c2 : ((off.toNat + 2 : Nat) : Int) - off = 2 := by omega
  have c3 : ((off.toNat + 3 : Nat) : Int) - off = 3 := by omega
  have g0 : (store_int p off v).getD off.toNat 0 = (int_bytes v).getD 0 0 := by
    rw [getD_store_int, if_pos ⟨by omega, by omega, by omega⟩, c0]; rfl
  have g1 : (store_int p off v).getD (off.toNat + 1) 0 = (int_bytes v).getD 1 0 := by
    rw [getD_store_int, if_pos ⟨by omega, by omega, by omega⟩, c1]; rfl
  have g2 : (store_int p off v).getD (off.toNat + 2) 0 = (int_bytes v).getD 2 0 := by
    rw [getD_store_int, if_pos ⟨by omega, by omega, by omega⟩, c2]; rfl
  have g3 : (store_int p off v).getD (off.toNat + 3) 0 = (int_bytes v).getD 3 0 := by
    rw [getD_store_int, if_pos ⟨by omega, by omega, by omega⟩, c3]; rfl
  unfold load_int
  rw [e1, e2, e3, g0, g1, g2, g3]
  simp only [int_bytes, List.getD_cons_zero, List.getD_cons_succ]
  have hu : ((v % 2 ^ 32).toNat : Int) = v % 2 ^ 32 := by
    have : (0 : Int) ≤ v % 2 ^ 32 := Int.emod_nonneg _ (by norm_num)
    omega
  generalize hU : (v % 2 ^ 32).toNat = u at hu
  have hub : u < 4294967296 := by
    have : v % 2 ^ 32 < 2 ^ 32 := Int.emod_lt_of_pos _ (by norm_num)
    omega
  have hsum : u % 256 + 256 * (u / 256 % 256) + 65536 * (u / 65536 % 256)
      + 16777216 * (u / 16777216 % 256) = u := by omega
  have hsumZ : ((u % 256 : Nat) : Int) + 256 * ((u / 256 % 256 : Nat) : Int)
      + 65536 * ((u / 65536 % 256 : Nat) : Int)
      + 16777216 * ((u / 16777216 % 256 : Nat) : Int) = (u : Int) := by
    exact_mod_cast hsum
  rw [hsumZ]
  split_ifs <;> omega

/-- Reading an `int` looks at the four bytes from `off` on only. -/
theorem load_int_congr (p q : List Nat) (off : Int) (hoff : 0 ≤ off)
    (h : ∀ k : Nat, off ≤ (k : Int) → (k : Int) < off + 4 → p.getD k 0 = q.getD k 0) :
    load_int p off = load_int q off := by
  unfold load_int
  rw [h off.toNat (by omega) (by omega), h (off + 1).toNat (by omega) (by omega),
    h (off + 2).toNat (by omega) (by omega), h (off + 3).toNat (by omega) (by omega)]

theorem to_size_t_ge (dt : Int) (h : dt ≥ sizeof_int) : ¬ to_size_t dt < sizeof_int := by
  unfold to_size_t sizeof_int at *
  rw [if_neg (by omega)]
  omega

theorem stg_add_freelist_ok (a : Arena) (i : Int) (hdt : a.stg.stg_dtsize ≥ sizeof_int) :
    stg_add_freelist a i = .ok
      { stg :=
          { stg_base := store_int (stg_clear a.stg i 1).stg_base
              (i * (stg_clear a.stg i 1).stg_dtsize) (stg_clear a.stg i 1).stg_free
            stg_size := (stg_clear a.stg i 1).stg_size
            stg_dtsize := (stg_clear a.stg i 1).stg_dtsize
            stg_avail := (stg_clear a.stg i 1).stg_avail
            stg_free := i
            stg_cleared := (stg_clear a.stg i 1).stg_cleared
            stg_name := (stg_clear a.stg i 1).stg_name }
        stg_sidecar := a.stg_sidecar } := by
  simp only [stg_add_freelist, if_neg (to_size_t_ge _ hdt)]

theorem stg_next_freelist_ok (b : Arena) (junk : Nat → Nat → Nat)
    (hdt : b.stg.stg_dtsize ≥ sizeof_int) (hf : b.stg.stg_free ≠ 0) :
    stg_next_freelist b junk = .ok (b.stg.stg_free,
      { stg := stg_clear
          { stg_base := b.stg.stg_base
            stg_size := b.stg.stg_size
            stg_dtsize := b.stg.stg_dtsize
            stg_avail := b.stg.stg_avail
            stg_free := load_int b.stg.stg_base (b.stg.stg_free * b.stg.stg_dtsize)
            stg_cleared := b.stg.stg_cleared
            stg_name := b.stg.stg_name }
          b.stg.stg_free 1
        stg_sidecar := b.stg_sidecar }) := by
  simp only [stg_next_freelist, if_neg hf, if_neg (to_size_t_ge _ hdt)]

/-- The arena `stg_add_freelist` leaves behind: the element is cleared, the old head
of the list is written into it, and it becomes the head. -/
theorem stg_add_freelist_shape (a : Arena) (i : Int)
    (hdt : a.stg.stg_dtsize ≥ sizeof_int) (hi : 0 ≤ i) :
    ∃ b, stg_add_freelist a i = .ok b ∧
      b.stg.stg_free = i ∧ b.stg.stg_dtsize = a.stg.stg_dtsize ∧
      b.stg.stg_size = a.stg.stg_size ∧
      b.stg.stg_base = store_int
        (memset0 a.stg.stg_base (i * a.stg.stg_dtsize) (1 * a.stg.stg_dtsize))
        (i * a.stg.stg_dtsize) a.stg.stg_free := by
  refine ⟨_, stg_add_freelist_ok a i hdt, rfl, by simp, by simp, ?_⟩
  simp only [stg_clear_dtsize, stg_clear_free]
  rw [stg_clear_base a.stg i 1 ⟨hi, by omega⟩]

/-- The arena `stg_next_freelist` leaves behind when the free list is not empty: the
head is returned, the link stored in it becomes the head, and the element is
cleared. -/
theorem stg_next_freelist_shape (b : Arena) (junk : Nat → Nat → Nat)
    (hdt : b.stg.stg_dtsize ≥ sizeof_int) (hf : b.stg.stg_free ≥ 1) :
    ∃ c, stg_next_freelist b junk = .ok (b.stg.stg_free, c) ∧
      c.stg.stg_free = load_int b.stg.stg_base (b.stg.stg_free * b.stg.stg_dtsize) ∧
      c.stg.stg_dtsize = b.stg.stg_dtsize ∧ c.stg.stg_size = b.stg.stg_size ∧
      c.stg.stg_base =
        memset0 b.stg.stg_base (b.stg.stg_free * b.stg.stg_dtsize) (1 * b.stg.stg_dtsize) ∧
      (((b.stg.stg_free + 1) * b.stg.stg_dtsize).toNat ≤ b.stg.stg_base.length →
        elem_zero c.stg b.stg.stg_free) := by
  refine ⟨_, stg_next_freelist_ok b junk hdt (by omega), by simp, by simp, by simp, ?_, ?_⟩
  · rw [stg_clear_base _ _ 1 ⟨by omega, by omega⟩]
  · intro hlen
    exact stg_clear_zero _ _ 1 _ (by omega) (by omega) (by omega) (by omega) hlen

/-- Bytes of element `i`, at least 4 bytes wide and below the capacity, lie in a
buffer that holds `size` elements. -/
theorem elem_in_buffer (i size dt : Int) (len : Nat) (hdt : dt ≥ 4) (hi1 : 0 ≤ i)
    (hi2 : i < size) (hlen : len = (size * dt).toNat) :
    0 ≤ i * dt ∧ (i * dt).toNat + 4 ≤ len ∧ ((i + 1) * dt).toNat ≤ len := by
  have h0 : 0 ≤ i * dt := mul_nonneg hi1 (by omega)
  have h1 : (i + 1) * dt ≤ size * dt := mul_le_mul_of_nonneg_right (by omega) (by omega)
  have h2 : (i + 1) * dt = i * dt + dt := by ring
  refine ⟨h0, ?_, ?_⟩ <;> omega

/-- C4: on an arena with element size at least `sizeof(int)` whose buffer holds
`stg_size` elements, `stg_add_freelist` of an index `i` with `1 ≤ i < stg_size`
followed by `stg_next_freelist` returns `i`, leaves every byte of element `i` zero,
and restores `stg_free`. -/
theorem freelist_roundtrip (a : Arena) (i : Int) (junk : Nat → Nat → Nat)
    (hdt : a.stg.stg_dtsize ≥ sizeof_int) (hi1 : 1 ≤ i) (hi2 : i < a.stg.stg_size)
    (hbuf : buffer_ok a.stg) (hfree : is_int a.stg.stg_free) :
    ∃ b c, stg_add_freelist a i = .ok b ∧ stg_next_freelist b junk = .ok (i, c) ∧
      elem_zero c.stg i ∧ c.stg.stg_free = a.stg.stg_free := by
  unfold buffer_ok at hbuf
  have hdt4 : a.stg.stg_dtsize ≥ 4 := hdt
  obtain ⟨g0, g1, g2⟩ := elem_in_buffer i a.stg.stg_size a.stg.stg_dtsize _ hdt4
    (by omega) hi2 hbuf
  obtain ⟨b, hb, e1, e2, _, e4⟩ := stg_add_freelist_shape a i hdt (by omega)
  obtain ⟨c, hc, f1, _, _, _, f5⟩ :=
    stg_next_freelist_shape b junk (by rw [e2]; exact hdt) (by rw [e1]; omega)
  have hlen : b.stg.stg_base.length = a.stg.stg_base.length := by
    rw [e4, length_store_int, length_memset0]
  rw [e1] at hc f1 f5
  rw [e2] at f1 f5
  refine ⟨b, c, hb, hc, f5 (by rw [hlen]; exact g2), ?_⟩
  rw [f1, e4]
  exact load_store_int _ _ _ g0 (by rw [length_memset0]; exact g1) hfree

/-- Witness of C4: on `freelist_arena`, releasing index 2 and allocating from the
free list returns 2 and puts `stg_free` back to 5. -/
theorem freelist_roundtrip_witness :
    ∃ b c, stg_add_freelist freelist_arena 2 = .ok b ∧
      stg_next_freelist b scenario_junk = .ok (2, c) ∧
      elem_zero c.stg 2 ∧ c.stg.stg_free = freelist_arena.stg.stg_free :=
  freelist_roundtrip freelist_arena 2 scenario_junk
    (by decide) (by decide) (by decide) (by decide) (by decide)

/-! ## Free list: last in, first out -/

/-- Bytes of different elements are different bytes. -/
theorem elem_disjoint (i j dt k : Int) (hdt : 0 < dt) (hij : i ≠ j)
    (hk : i * dt ≤ k ∧ k < i * dt + dt) : ¬ (j * dt ≤ k ∧ k < j * dt + dt) := by
  intro hj
  rcases lt_or_gt_of_ne hij with h | h
  · have h1 : (i + 1) * dt ≤ j * dt := mul_le_mul_of_nonneg_right (by omega) hdt.le
    have h2 : (i + 1) * dt = i * dt + dt := by ring
    omega
  · have h1 : (j + 1) * dt ≤ i * dt := mul_le_mul_of_nonneg_right (by omega) hdt.le
    have h2 : (j + 1) * dt = j * dt + dt := by ring
    omega

theorem stg_next_freelist_seq_snoc (b : Arena) (k : Nat) (junk : Nat → Nat → Nat → Nat)
    (l : List Int) (c d : Arena) (r : Int)
    (h1 : stg_next_freelist_seq b k junk = .ok (l, c))
    (h2 : stg_next_freelist c (junk k) = .ok (r, d)) :
    stg_next_freelist_seq b (k + 1) junk = .ok (l ++ [r], d) := by
  induction k generalizing b junk l with
  | zero =>
    simp only [stg_next_freelist_seq] at h1
    injection h1 with h1
    injection h1 with e1 e2
    subst e1 e2
    simp only [stg_next_freelist_seq, h2, List.nil_append]
  | succ k ih =>
    rw [stg_next_freelist_seq] at h1
    rw [stg_next_freelist_seq]
    cases hres : stg_next_freelist b (junk 0) with
    | error e => rw [hres] at h1; simp at h1
    | ok res =>
      rw [hres] at h1
      simp only at h1 ⊢
      cases hrest : stg_next_freelist_seq res.2 k (fun c => junk (c + 1)) with
      | error e => rw [hrest] at h1; simp at h1
      | ok rest =>
        rw [hrest] at h1
        simp only at h1
        injection h1 with h1
        injection h1 with e1 e2
        subst e1 e2
        have := ih res.2 (fun c => junk (c + 1)) rest.1 (by rw [hrest]) h2
        rw [this]
        simp

/-- Releasing the indices `is` and allocating as many times from the free list gives
them back in reverse order, restores `stg_free`, and changes no byte outside the
released elements. -/
theorem freelist_lifo_frame (is : List Int) :
    ∀ (a : Arena) (junk : Nat → Nat → Nat → Nat),
      a.stg.stg_dtsize ≥ sizeof_int → buffer_ok a.stg → is_int a.stg.stg_free →
      is_int a.stg.stg_size → (∀ i ∈ is, 1 ≤ i ∧ i < a.stg.stg_size) → is.Nodup →
      ∃ b c, stg_add_freelist_seq a is = .ok b ∧
        stg_next_freelist_seq b is.length junk = .ok (is.reverse, c) ∧
        c.stg.stg_free = a.stg.stg_free ∧ c.stg.stg_dtsize = a.stg.stg_dtsize ∧
        c.stg.stg_size = a.stg.stg_size ∧
        c.stg.stg_base.length = a.stg.stg_base.length ∧
        ∀ k : Nat, (∀ i ∈ is, ¬ (i * a.stg.stg_dtsize ≤ (k : Int) ∧
            (k : Int) < i * a.stg.stg_dtsize + a.stg.stg_dtsize)) →
          c.stg.stg_base.getD k 0 = a.stg.stg_base.getD k 0 := by
  induction is with
  | nil =>
    intro a junk _ _ _ _ _ _
    exact ⟨a, a, rfl, rfl, rfl, rfl, rfl, rfl, fun _ _ => rfl⟩
  | cons i rest ih =>
    intro a junk hdt hbuf hfree hsz hrange hnd
    have hdt4 : a.stg.stg_dtsize ≥ 4 := hdt
    have hi := hrange i (List.mem_cons_self _ _)
    have hnd' := List.nodup_cons.mp hnd
    obtain ⟨g0, g1, g2⟩ := elem_in_buffer i a.stg.stg_size a.stg.stg_dtsize _ hdt4
      (by omega) hi.2 hbuf
    obtain ⟨a1, ha1, e1, e2, e3, e4⟩ := stg_add_freelist_shape a i hdt (by omega)
    have hlen1 : a1.stg.stg_base.length = a.stg.stg_base.length := by
      rw [e4, length_store_int, length_memset0]
    have hint : is_int i := by
      unfold is_int at hsz ⊢
      omega
    obtain ⟨b, c1, hb, hc1, f1, f2, f3, f4, f5⟩ := ih a1 junk (by rw [e2]; exact hdt)
      (by unfold buffer_ok at hbuf ⊢; rw [hlen1, e2, e3]; exact hbuf)
      (by rw [e1]; exact hint) (by rw [e3]; exact hsz)
      (fun j hj => by rw [e3]; exact hrange j (List.mem_cons_of_mem _ hj)) hnd'.2
    rw [e1] at f1
    rw [e2] at f2 f5
    obtain ⟨c, hc, p1, p2, p3, p4, _⟩ := stg_next_freelist_shape c1 (junk rest.length)
      (by rw [f2]; exact hdt) (by rw [f1]; omega)
    rw [f1] at hc p1 p4
    rw [f2] at p1 p4
    refine ⟨b, c, ?_, ?_, ?_, by rw [p2, f2], by rw [p3, f3, e3], ?_, ?_⟩
    · simp only [stg_add_freelist_seq, ha1, hb]
    · rw [List.length_cons, List.reverse_cons]
      exact stg_next_freelist_seq_snoc b rest.length junk rest.reverse c1 c i hc1 hc
    · rw [p1]
      have hcong : load_int c1.stg.stg_base (i * a.stg.stg_dtsize)
          = load_int a1.stg.stg_base (i * a.stg.stg_dtsize) := by
        apply load_int_congr _ _ _ g0
        intro k hk1 hk2
        apply f5 k
        intro j hj
        have hne : i ≠ j := fun h => hnd'.1 (h ▸ hj)
        exact elem_disjoint i j a.stg.stg_dtsize k (by omega) hne ⟨hk1, by omega⟩
      rw [hcong, e4]
      exact load_store_int _ _ _ g0 (by rw [length_memset0]; exact g1) hfree
    · rw [p4, length_memset0, f4, hlen1]
    · intro k hk
      have hki := hk i (List.mem_cons_self _ _)
      rw [p4, getD_memset0, if_neg (by rw [one_mul]; exact hki)]
      rw [f5 k (fun j hj => hk j (List.mem_cons_of_mem _ hj))]
      rw [e4, getD_store_int, if_neg (fun h => hki ⟨h.2.1, by omega⟩)]
      rw [getD_memset0, if_neg (by rw [one_mul]; exact hki)]

/-- C5: on an arena with element size at least `sizeof(int)` whose buffer holds
`stg_size` elements, releasing pairwise distinct indices `i_1, ..., i_k` of
`[1, stg_size)` in that order with `stg_add_freelist` and then calling
`stg_next_freelist` `k` times returns `i_k, ..., i_1` and leaves `stg_free` at its
value from before the releases. -/
theorem freelist_lifo (a : Arena) (is : List Int) (junk : Nat → Nat → Nat → Nat)
    (hdt : a.stg.stg_dtsize ≥ sizeof_int) (hbuf : buffer_ok a.stg)
    (hfree : is_int a.stg.stg_free) (hsize : is_int a.stg.stg_size)
    (hrange : ∀ i ∈ is, 1 ≤ i ∧ i < a.stg.stg_size) (hnd : is.Nodup) :
    ∃ b c, stg_add_freelist_seq a is = .ok b ∧
      stg_next_freelist_seq b is.length junk = .ok (is.reverse, c) ∧
      c.stg.stg_free = a.stg.stg_free := by
  obtain ⟨b, c, h1, h2, h3, _⟩ := freelist_lifo_frame is a junk hdt hbuf hfree hsize hrange hnd
  exact ⟨b, c, h1, h2, h3⟩

/-- Witness of C5: on `freelist_arena`, releasing 1, 3, 2 and allocating three times
from the free list yields 2, 3, 1 and puts `stg_free` back to 5. -/
theorem freelist_lifo_witness :
    ∃ b c, stg_add_freelist_seq freelist_arena [1, 3, 2] = .ok b ∧
      stg_next_freelist_seq b 3 (fun _ => scenario_junk) = .ok ([2, 3, 1], c) ∧
      c.stg.stg_free = 5 :=
  freelist_lifo freelist_arena [1, 3, 2] (fun _ => scenario_junk)
    (by decide) (by decide) (by decide) (by decide) (by decide) (by decide)

/-! ## `stg_clear`, `stg_alloc` and the empty free list -/

theorem stg_clear_name (stg : STG) (r n : Int) :
    (stg_clear stg r n).stg_name = stg.stg_name := by
  unfold stg_clear; dsimp only; split_ifs <;> rfl

theorem stg_clear_noop (stg : STG) (r n : Int) (h : ¬ (r ≥ 0 ∧ n > 0)) :
    stg_clear stg r n = stg := by
  unfold stg_clear; rw [if_neg h]

theorem stg_clear_cleared (stg : STG) (r n : Int) (h : r ≥ 0 ∧ n > 0) :
    (stg_clear stg r n).stg_cleared =
      if r = stg.stg_cleared then stg.stg_cleared + n
      else if r = 0 ∧ n > stg.stg_cleared then n else stg.stg_cleared := by
  unfold stg_clear; rw [if_pos h]; dsimp only; split_ifs <;> rfl

/-- C15: `stg_clear` changes nothing when `count ≤ 0` or `start < 0`.  When
`start ≥ 0` and `count > 0` the bytes of the elements `[start, start+count)` become
zero and every other byte of the buffer is unchanged, the other fields are kept,
and `stg_cleared` becomes `stg_cleared + count` if `start = stg_cleared`, `count` if
`start = 0` and `count > stg_cleared`, and is kept otherwise.  In every case
`stg_cleared` does not decrease. -/
theorem stg_clear_spec (stg : STG) (start count : Int) :
    ((count ≤ 0 ∨ start < 0) → stg_clear stg start count = stg) ∧
    ((start ≥ 0 ∧ count > 0) →
      (stg_clear stg start count).stg_base.length = stg.stg_base.length ∧
      (∀ k : Nat, k < stg.stg_base.length →
        start * stg.stg_dtsize ≤ (k : Int) → (k : Int) < (start + count) * stg.stg_dtsize →
        (stg_clear stg start count).stg_base[k]? = some 0) ∧
      (∀ k : Nat, ¬ (start * stg.stg_dtsize ≤ (k : Int) ∧
          (k : Int) < (start + count) * stg.stg_dtsize) →
        (stg_clear stg start count).stg_base[k]? = stg.stg_base[k]?) ∧
      (((start + count) * stg.stg_dtsize).toNat ≤ stg.stg_base.length →
        ∀ e, start ≤ e → e < start + count → elem_zero (stg_clear stg start count) e) ∧
      (stg_clear stg start count).stg_size = stg.stg_size ∧
      (stg_clear stg start count).stg_dtsize = stg.stg_dtsize ∧
      (stg_clear stg start count).stg_avail = stg.stg_avail ∧
      (stg_clear stg start count).stg_free = stg.stg_free ∧
      (stg_clear stg start count).stg_name = stg.stg_name ∧
      (stg_clear stg start count).stg_cleared =
        if start = stg.stg_cleared then stg.stg_cleared + count
        else if start = 0 ∧ count > stg.stg_cleared then count else stg.stg_cleared) ∧
    stg.stg_cleared ≤ (stg_clear stg start count).stg_cleared := by
  have hmul : (start + count) * stg.stg_dtsize
      = start * stg.stg_dtsize + count * stg.stg_dtsize := by ring
  refine ⟨fun h => stg_clear_noop stg start count (by omega), fun h => ?_, ?_⟩
  · refine ⟨stg_clear_length stg start count, ?_, ?_, ?_, stg_clear_size _ _ _,
      stg_clear_dtsize _ _ _, stg_clear_avail _ _ _, stg_clear_free _ _ _,
      stg_clear_name _ _ _, stg_clear_cleared stg start count h⟩
    · intro k hk h1 h2
      rw [stg_clear_base stg start count h, get_memset0, if_pos hk, if_pos ⟨h1, by omega⟩]
    · intro k hk
      rw [stg_clear_base stg start count h, get_memset0]
      by_cases hlen : k < stg.stg_base.length
      · rw [if_pos hlen, if_neg (by rw [← hmul]; exact hk), List.getD_eq_getElem?_getD,
          List.getElem?_eq_getElem hlen]
        rfl
      · rw [if_neg hlen, List.getElem?_eq_none (by omega)]
    · intro hlen e he1 he2
      exact stg_clear_zero stg start count e (by omega) (by omega) he1 he2 hlen
  · by_cases h : start ≥ 0 ∧ count > 0
    · rw [stg_clear_cleared stg start count h]
      split_ifs <;> omega
    · rw [stg_clear_noop stg start count h]

/-- C14: `stg_alloc` reports the fatal `InvalidSize` error exactly when `dtsize ≤ 0`
or `size ≤ 0`, and completes without a fatal error exactly when `dtsize ≥ 1` and
`size ≥ 1`. -/
theorem stg_alloc_invalid_size (dtsize size : Int) (name : String) (junk : Nat → Nat) :
    (stg_alloc dtsize size name junk = .error .InvalidSize ↔ (dtsize ≤ 0 ∨ size ≤ 0)) ∧
    ((∃ a, stg_alloc dtsize size name junk = .ok a) ↔ (dtsize ≥ 1 ∧ size ≥ 1)) := by
  by_cases hg : dtsize > 0 ∧ size > 0
  · rw [stg_alloc_ok dtsize size name junk hg]
    refine ⟨⟨fun h => by simp at h, fun h => by omega⟩, fun _ => by omega, fun _ => ⟨_, rfl⟩⟩
  · have herr : stg_alloc dtsize size name junk = .error .InvalidSize := by
      simp only [stg_alloc, stg_alloc_base, if_neg hg]
    rw [herr]
    refine ⟨⟨fun _ => by omega, fun _ => rfl⟩, fun ⟨a, ha⟩ => by simp at ha, fun h => ?_⟩
    exact absurd ⟨by omega, by omega⟩ hg

/-- The head `stg_next` leaves behind is the result of one `stg_clear` from the old
cleared mark, clamped to the old length, up to the new length. -/
theorem stg_next_head (a : Arena) (n : Int) (junk : Nat → Nat → Nat) (hn : n ≥ 1) :
    ∃ s0 : STG, (stg_next a n junk).2.stg =
        stg_clear s0 (min a.stg.stg_cleared a.stg.stg_avail)
          (a.stg.stg_avail + n - min a.stg.stg_cleared a.stg.stg_avail) ∧
      s0.stg_dtsize = a.stg.stg_dtsize ∧
      s0.stg_cleared = min a.stg.stg_cleared a.stg.stg_avail := by
  rcases le_total a.stg.stg_cleared a.stg.stg_avail with h | h
  · rw [min_eq_left h]
    unfold stg_next stg_need for_chain
    dsimp only
    split_ifs <;> simp only [] at * <;>
      first
      | omega
      | exact ⟨_, rfl, rfl, rfl⟩
  · rw [min_eq_right h]
    unfold stg_next stg_need for_chain
    dsimp only
    split_ifs <;> simp only [] at * <;>
      first
      | omega
      | exact ⟨_, rfl, rfl, rfl⟩
      | (have hc : a.stg.stg_cleared = a.stg.stg_avail := by omega
         rw [hc]
         exact ⟨_, rfl, rfl, rfl⟩)

theorem memset0_again (p : List Nat) (o1 l1 o2 l2 : Int) (h1 : o1 ≤ o2)
    (h2 : o2 + l2 ≤ o1 + l1) :
    memset0 (memset0 p o1 l1) o2 l2 = memset0 p o1 l1 := by
  apply List.ext_getElem?
  intro k
  rw [get_memset0, length_memset0, getD_memset0, get_memset0]
  by_cases hk : k < p.length
  · simp only [if_pos hk]
    by_cases hin : o2 ≤ (k : Int) ∧ (k : Int) < o2 + l2
    · rw [if_pos hin, if_pos ⟨by omega, by omega⟩]
    · rw [if_neg hin]
  · simp only [if_neg hk]

theorem memset0_nonpos (p : List Nat) (off len : Int) (h : len ≤ 0) :
    memset0 p off len = p := by
  apply List.ext_getElem?
  intro k
  rw [get_memset0]
  by_cases hk : k < p.length
  · rw [if_pos hk, if_neg (by omega), List.getD_eq_getElem?_getD,
      List.getElem?_eq_getElem hk]
    rfl
  · rw [if_neg hk, List.getElem?_eq_none (by omega)]

/-- Clearing the element `stg_next` with count 1 returned changes nothing: it was
cleared by `stg_next` and lies below the cleared mark. -/
theorem stg_next_clear_again (a : Arena) (junk : Nat → Nat → Nat)
    (havail : a.stg.stg_avail ≥ 0) (hcleared : a.stg.stg_cleared ≥ 0) :
    stg_clear (stg_next a 1 junk).2.stg (stg_next a 1 junk).1 1
      = (stg_next a 1 junk).2.stg := by
  obtain ⟨s0, hs, hdt, hcl⟩ := stg_next_head a 1 junk (by omega)
  have hmin1 : min a.stg.stg_cleared a.stg.stg_avail ≥ 0 := le_min hcleared havail
  have hmin2 : min a.stg.stg_cleared a.stg.stg_avail ≤ a.stg.stg_avail := min_le_right _ _
  have hg : min a.stg.stg_cleared a.stg.stg_avail ≥ 0 ∧
      a.stg.stg_avail + 1 - min a.stg.stg_cleared a.stg.stg_avail > 0 := ⟨hmin1, by omega⟩
  have hg2 : (stg_next a 1 junk).1 ≥ 0 ∧ (1 : Int) > 0 := by
    rw [stg_next_fst]; exact ⟨havail, by omega⟩
  have hc : (stg_next a 1 junk).2.stg.stg_cleared = a.stg.stg_avail + 1 := by
    rw [hs, stg_clear_cleared _ _ _ hg, if_pos hcl.symm, hcl]
    omega
  have hb : (stg_clear (stg_next a 1 junk).2.stg (stg_next a 1 junk).1 1).stg_base
      = (stg_next a 1 junk).2.stg.stg_base := by
    rw [stg_clear_base _ _ _ hg2, stg_next_fst, hs, stg_clear_base _ _ _ hg,
      stg_clear_dtsize]
    rcases le_or_lt 0 s0.stg_dtsize with hdt0 | hdt0
    swap
    · exact memset0_nonpos _ _ _ (by omega)
    have hle : min a.stg.stg_cleared a.stg.stg_avail * s0.stg_dtsize
        ≤ a.stg.stg_avail * s0.stg_dtsize := mul_le_mul_of_nonneg_right hmin2 hdt0
    apply memset0_again
    · exact hle
    · have : (a.stg.stg_avail + 1 - min a.stg.stg_cleared a.stg.stg_avail) * s0.stg_dtsize
          = a.stg.stg_avail * s0.stg_dtsize + 1 * s0.stg_dtsize
            - min a.stg.stg_cleared a.stg.stg_avail * s0.stg_dtsize := by ring
      omega
  have hcc : (stg_clear (stg_next a 1 junk).2.stg (stg_next a 1 junk).1 1).stg_cleared
      = (stg_next a 1 junk).2.stg.stg_cleared := by
    rw [stg_clear_cleared _ _ _ hg2, stg_next_fst, hc]
    split_ifs <;> omega
  have e1 := stg_clear_size (stg_next a 1 junk).2.stg (stg_next a 1 junk).1 1
  have e2 := stg_clear_dtsize (stg_next a 1 junk).2.stg (stg_next a 1 junk).1 1
  have e3 := stg_clear_avail (stg_next a 1 junk).2.stg (stg_next a 1 junk).1 1
  have e4 := stg_clear_free (stg_next a 1 junk).2.stg (stg_next a 1 junk).1 1
  have e5 := stg_clear_name (stg_next a 1 junk).2.stg (stg_next a 1 junk).1 1
  generalize stg_clear (stg_next a 1 junk).2.stg (stg_next a 1 junk).1 1 = t at *
  generalize (stg_next a 1 junk).2.stg = u at *
  cases t; cases u
  simp only at hb hcc e1 e2 e3 e4 e5
  subst hb hcc e1 e2 e3 e4 e5
  rfl

/-- C12: with an empty free list (`stg_free = 0`), on an arena with `stg_size ≥ 1`,
`stg_avail ≥ 0` and `stg_cleared ≥ 0`, `stg_next_freelist` reports no error, returns
the index `stg_next` with count 1 returns, and leaves the same arena: the same
fields and the same buffer contents, for the base and for every sidecar. -/
theorem stg_next_freelist_empty (a : Arena) (junk : Nat → Nat → Nat)
    (hfree : a.stg.stg_free = 0) (_hsize : a.stg.stg_size ≥ 1)
    (havail : a.stg.stg_avail ≥ 0) (hcleared : a.stg.stg_cleared ≥ 0) :
    stg_next_freelist a junk = .ok (stg_next a 1 junk) := by
  have hkeep := stg_next_clear_again a junk havail hcleared
  simp only [stg_next_freelist, if_pos hfree, hkeep]

/-- Witness of C12 on the scenario arena, whose free list is empty. -/
theorem stg_next_freelist_empty_witness :
    scenario_arena.stg.stg_free = 0 ∧
    stg_next_freelist scenario_arena scenario_junk
      = .ok (stg_next scenario_arena 1 scenario_junk) :=
  ⟨by decide, stg_next_freelist_empty scenario_arena scenario_junk
    (by decide) (by decide) (by decide) (by decide)⟩

/-! ## Hash accumulator -/

/-- C17: with `HASH_ACCU_INIT`, `HASH_ACCU_ADD` and `HASH_ACCU_FINISH` on a 32-bit
accumulator, the final value for the fields 1, 2 differs from the one for 2, 1, so
there are values whose order matters, while the final value is a function of the
ordered pair of fields. -/
theorem hash_accu_order_sensitive :
    HASH_ACCU_FINISH (HASH_ACCU_ADD (HASH_ACCU_ADD HASH_ACCU_INIT 1) 2)
      ≠ HASH_ACCU_FINISH (HASH_ACCU_ADD (HASH_ACCU_ADD HASH_ACCU_INIT 2) 1) ∧
    (∃ x y : Nat, x < 2 ^ 32 ∧ y < 2 ^ 32 ∧
      HASH_ACCU_FINISH (HASH_ACCU_ADD (HASH_ACCU_ADD HASH_ACCU_INIT x) y)
        ≠ HASH_ACCU_FINISH (HASH_ACCU_ADD (HASH_ACCU_ADD HASH_ACCU_INIT y) x)) ∧
    (∀ x y x1 y1 : Nat, (x, y) = (x1, y1) →
      HASH_ACCU_FINISH (HASH_ACCU_ADD (HASH_ACCU_ADD HASH_ACCU_INIT x) y)
        = HASH_ACCU_FINISH (HASH_ACCU_ADD (HASH_ACCU_ADD HASH_ACCU_INIT x1) y1)) := by
  have h12 : HASH_ACCU_FINISH (HASH_ACCU_ADD (HASH_ACCU_ADD HASH_ACCU_INIT 1) 2)
      ≠ HASH_ACCU_FINISH (HASH_ACCU_ADD (HASH_ACCU_ADD HASH_ACCU_INIT 2) 1) := by decide
  refine ⟨h12, ⟨1, 2, by decide, by decide, h12⟩, ?_⟩
  intro x y x1 y1 h
  have hx : x = x1 := congrArg Prod.fst h
  have hy : y = y1 := congrArg Prod.snd h
  rw [hx, hy]

/-- Adding a left shift is a multiplication by an odd number. -/
theorem add_shift_eq (x s : Nat) :
    (x + (x <<< s) % 2 ^ 32) % 2 ^ 32 = (x * (2 ^ s + 1)) % 2 ^ 32 := by
  rw [Nat.shiftLeft_eq, Nat.add_mod_mod, Nat.mul_add, Nat.mul_one, Nat.add_comm]

/-- Multiplication by an odd number is injective on 32-bit values. -/
theorem mul_odd_inj (c x y : Nat) (hc : Nat.Coprime (2 ^ 32) c) (hx : x < 2 ^ 32)
    (hy : y < 2 ^ 32) (h : (x * c) % 2 ^ 32 = (y * c) % 2 ^ 32) : x = y := by
  have h1 : x ≡ y [MOD 2 ^ 32] := Nat.ModEq.cancel_right_of_coprime hc h
  have h2 := Nat.ModEq.eq_of_lt_of_lt h1 hx hy
  exact h2

/-- The bits of `x ^^^ (x >>> s)` determine the bits of a 32-bit `x`, from the top
bit down. -/
theorem xor_shift_inj (s x y : Nat) (hs : 0 < s) (hx : x < 2 ^ 32) (hy : y < 2 ^ 32)
    (h : x ^^^ (x >>> s) = y ^^^ (y >>> s)) : x = y := by
  have key : ∀ d i, 32 ≤ i + d → x.testBit i = y.testBit i := by
    intro d
    induction d with
    | zero =>
      intro i hi
      have hp : 2 ^ 32 ≤ 2 ^ i := Nat.pow_le_pow_right (by norm_num) (by omega)
      rw [Nat.testBit_lt_two_pow (lt_of_lt_of_le hx hp),
        Nat.testBit_lt_two_pow (lt_of_lt_of_le hy hp)]
    | succ d ih =>
      intro i hi
      have hb := congrArg (fun z => z.testBit i) h
      simp only [Nat.testBit_xor, Nat.testBit_shiftRight] at hb
      have hnext := ih (s + i) (by omega)
      rw [hnext] at hb
      cases hxi : x.testBit i <;> cases hyi : y.testBit i <;>
        cases hys : y.testBit (s + i) <;> simp_all
  exact Nat.eq_of_testBit_eq (fun i => key 32 i (by omega))

theorem xor_shift_lt (s x : Nat) (hx : x < 2 ^ 32) : x ^^^ (x >>> s) < 2 ^ 32 := by
  apply Nat.xor_lt_two_pow hx
  rw [Nat.shiftRight_eq_div_pow]
  exact lt_of_le_of_lt (Nat.div_le_self _ _) hx

theorem HASH_ACCU_ADD_lt (a data : Nat) : HASH_ACCU_ADD a data < 2 ^ 32 := by
  unfold HASH_ACCU_ADD
  exact xor_shift_lt 6 _ (Nat.mod_lt _ (by norm_num))

theorem HASH_ACCU_FINISH_lt (a : Nat) : HASH_ACCU_FINISH a < 2 ^ 32 := by
  unfold HASH_ACCU_FINISH
  exact Nat.mod_lt _ (by norm_num)

/-- Equal results of `HASH_ACCU_ADD` come from equal sums of accumulator and
value. -/
theorem HASH_ACCU_ADD_sum (a b v w : Nat) (h : HASH_ACCU_ADD a v = HASH_ACCU_ADD b w) :
    (a + v % 2 ^ 32) % 2 ^ 32 = (b + w % 2 ^ 32) % 2 ^ 32 := by
  unfold HASH_ACCU_ADD at h
  simp only [add_shift_eq] at h
  have h1 := xor_shift_inj 6 _ _ (by norm_num) (Nat.mod_lt _ (by norm_num))
    (Nat.mod_lt _ (by norm_num)) h
  exact mul_odd_inj (2 ^ 10 + 1) _ _ (by norm_num) (Nat.mod_lt _ (by norm_num))
    (Nat.mod_lt _ (by norm_num)) h1

theorem HASH_ACCU_ADD_inj_acc (v a b : Nat) (ha : a < 2 ^ 32) (hb : b < 2 ^ 32)
    (h : HASH_ACCU_ADD a v = HASH_ACCU_ADD b v) : a = b := by
  have := HASH_ACCU_ADD_sum a b v v h
  omega

theorem HASH_ACCU_ADD_inj_data (a v w : Nat) (hv : v < 2 ^ 32) (hw : w < 2 ^ 32)
    (h : HASH_ACCU_ADD a v = HASH_ACCU_ADD a w) : v = w := by
  have := HASH_ACCU_ADD_sum a a v w h
  omega

theorem HASH_ACCU_FINISH_inj (a b : Nat) (ha : a < 2 ^ 32) (hb : b < 2 ^ 32)
    (h : HASH_ACCU_FINISH a = HASH_ACCU_FINISH b) : a = b := by
  unfold HASH_ACCU_FINISH at h
  simp only [add_shift_eq] at h
  have h1 := mul_odd_inj (2 ^ 15 + 1) _ _ (by norm_num)
    (xor_shift_lt 11 _ (Nat.mod_lt _ (by norm_num)))
    (xor_shift_lt 11 _ (Nat.mod_lt _ (by norm_num))) h
  have h2 := xor_shift_inj 11 _ _ (by norm_num) (Nat.mod_lt _ (by norm_num))
    (Nat.mod_lt _ (by norm_num)) h1
  have h3 := mul_odd_inj (2 ^ 3 + 1) a b (by norm_num) ha hb
    h2
  exact h3

/-- A map of the 32-bit values into themselves that is injective there is a
bijection of them. -/
theorem bijOn_of_inj (f : Nat → Nat) (hlt : ∀ x, f x < 2 ^ 32)
    (hinj : ∀ x y, x < 2 ^ 32 → y < 2 ^ 32 → f x = f y → x = y) :
    Set.BijOn f (Set.Iio (2 ^ 32)) (Set.Iio (2 ^ 32)) := by
  refine ⟨fun x _ => hlt x, fun x hx y hy h => hinj x y hx hy h, ?_⟩
  let g : Fin (2 ^ 32) → Fin (2 ^ 32) := fun x => ⟨f x, hlt x⟩
  have hg : Function.Injective g := by
    intro x y h
    have h1 : f x = f y := congrArg Fin.val h
    exact Fin.ext (hinj x y x.2 y.2 h1)
  have hs : Function.Surjective g := Finite.injective_iff_surjective.mp hg
  intro y hy
  obtain ⟨x, hx⟩ := hs ⟨y, hy⟩
  exact ⟨x, x.2, congrArg Fin.val hx⟩

theorem foldl_add_lt (vs : List Nat) (a : Nat) (ha : a < 2 ^ 32) :
    vs.foldl HASH_ACCU_ADD a < 2 ^ 32 := by
  induction vs generalizing a with
  | nil => exact ha
  | cons v vs ih => exact ih _ (HASH_ACCU_ADD_lt a v)

theorem foldl_add_inj (vs : List Nat) (a b : Nat) (ha : a < 2 ^ 32) (hb : b < 2 ^ 32)
    (h : vs.foldl HASH_ACCU_ADD a = vs.foldl HASH_ACCU_ADD b) : a = b := by
  induction vs generalizing a b with
  | nil => exact h
  | cons v vs ih =>
    exact HASH_ACCU_ADD_inj_acc v a b ha hb
      (ih _ _ (HASH_ACCU_ADD_lt a v) (HASH_ACCU_ADD_lt b v) h)

/-- C19: for every value `v` the step `acc ↦ HASH_ACCU_ADD acc v` is a bijection of
the 32-bit accumulators, for every accumulator `acc` the map `v ↦ HASH_ACCU_ADD acc v`
is injective on the 32-bit values, and `HASH_ACCU_FINISH` is a bijection of the
32-bit accumulators; hence two field sequences of 32-bit values that differ in
exactly one position have different final hash values. -/
theorem hash_accu_single_field :
    (∀ v : Nat, Set.BijOn (fun acc => HASH_ACCU_ADD acc v) (Set.Iio (2 ^ 32))
      (Set.Iio (2 ^ 32))) ∧
    (∀ acc : Nat, Set.InjOn (fun v => HASH_ACCU_ADD acc v) (Set.Iio (2 ^ 32))) ∧
    Set.BijOn HASH_ACCU_FINISH (Set.Iio (2 ^ 32)) (Set.Iio (2 ^ 32)) ∧
    (∀ (before after : List Nat) (v w : Nat), v < 2 ^ 32 → w < 2 ^ 32 → v ≠ w →
      hash_fields (before ++ v :: after) ≠ hash_fields (before ++ w :: after)) := by
  refine ⟨fun v => bijOn_of_inj _ (fun x => HASH_ACCU_ADD_lt x v)
      (fun x y hx hy h => HASH_ACCU_ADD_inj_acc v x y hx hy h),
    fun acc v hv w hw h => HASH_ACCU_ADD_inj_data acc v w hv hw h,
    bijOn_of_inj _ HASH_ACCU_FINISH_lt HASH_ACCU_FINISH_inj, ?_⟩
  intro before after v w hv hw hne h
  unfold hash_fields HASH_ACCU_VALUE at h
  simp only [Nat.add_zero, List.foldl_append, List.foldl_cons] at h
  rw [Nat.mod_eq_of_lt (HASH_ACCU_FINISH_lt _), Nat.mod_eq_of_lt (HASH_ACCU_FINISH_lt _)] at h
  have hacc : List.foldl HASH_ACCU_ADD HASH_ACCU_INIT before < 2 ^ 32 :=
    foldl_add_lt before _ (by unfold HASH_ACCU_INIT; norm_num)
  have h1 := HASH_ACCU_FINISH_inj _ _ (foldl_add_lt after _ (HASH_ACCU_ADD_lt _ v))
    (foldl_add_lt after _ (HASH_ACCU_ADD_lt _ w)) h
  have h2 := foldl_add_inj after _ _ (HASH_ACCU_ADD_lt _ v) (HASH_ACCU_ADD_lt _ w) h1
  exact hne (HASH_ACCU_ADD_inj_data _ v w hv hw h2)

theorem foldl_add_zeros (m : Nat) :
    (List.replicate m 0).foldl HASH_ACCU_ADD HASH_ACCU_INIT = HASH_ACCU_INIT := by
  induction m with
  | zero => rfl
  | succ m ih =>
    rw [List.replicate_succ, List.foldl_cons]
    have h0 : HASH_ACCU_ADD HASH_ACCU_INIT 0 = HASH_ACCU_INIT := by decide
    rw [h0, ih]

/-- C20: adding the value 0 to a zero accumulator leaves it 0 and finishing a zero
accumulator gives 0; so the final hash of `(0, ..., 0, x)` with any number of
leading zeros is the final hash of `(x)`, and the final hash of an all-zero
sequence of any length, the empty one included, is 0. -/
theorem hash_leading_zeros :
    HASH_ACCU_ADD HASH_ACCU_INIT 0 = 0 ∧ HASH_ACCU_FINISH 0 = 0 ∧
    (∀ (m x : Nat), hash_fields (List.replicate m 0 ++ [x]) = hash_fields [x]) ∧
    (∀ m : Nat, hash_fields (List.replicate m 0) = 0) ∧ hash_fields [] = 0 := by
  refine ⟨by decide, by decide, ?_, ?_, by decide⟩
  · intro m x
    unfold hash_fields
    rw [List.foldl_append, foldl_add_zeros]
  · intro m
    unfold hash_fields
    rw [foldl_add_zeros]
    decide

/-! ## Hash set and hash map -/

theorem find_append_new {α : Type} (p : α → Bool) (l : List α) (x : α)
    (hl : ∀ y ∈ l, p y = false) (hx : p x = true) : (l ++ [x]).find? p = some x := by
  induction l with
  | nil => simp [hx]
  | cons y ys ih =>
    have hy := hl y (List.mem_cons_self _ _)
    rw [List.cons_append, List.find?_cons, hy]
    exact ih (fun z hz => hl z (List.mem_cons_of_mem _ hz))

/-- C18: for a hash set and a key `k` that the bound equality function takes as
equal to itself and to no stored key, `hashset_lookup` after `hashset_insert` returns
a stored key equal to `k` (the key `k` itself) and `hashset_size` has grown by 1;
likewise for a hash map, where the lookup also yields the inserted data. -/
theorem hashset_insert_lookup (h : hashset_t) (m : hashmap_t) (k : hash_key_t)
    (d : hash_data_t)
    (hrefl : h.functions.equals k k = true)
    (hnew : ∀ s ∈ h.keys, h.functions.equals k s = false)
    (mrefl : m.functions.equals k k = true)
    (mnew : ∀ e ∈ m.entries, m.functions.equals k e.1 = false) :
    (hashset_lookup (hashset_insert h k) k = some k ∧
      k ∈ (hashset_insert h k).keys ∧
      hashset_size (hashset_insert h k) = hashset_size h + 1) ∧
    (hashmap_lookup (hashmap_insert m k d) k = some (k, d) ∧
      (k, d) ∈ (hashmap_insert m k d).entries ∧
      hashmap_size (hashmap_insert m k d) = hashmap_size m + 1) := by
  refine ⟨⟨find_append_new _ _ _ hnew hrefl, by simp [hashset_insert],
      by simp [hashset_size, hashset_insert]⟩,
    ⟨find_append_new _ _ _ mnew mrefl, by simp [hashmap_insert],
      by simp [hashmap_size, hashmap_insert]⟩⟩

/-- Witness of C18: the directly hashed set with the keys 5 and 9 and the map with
the key 5, both receiving the key 7. -/
theorem hashset_insert_lookup_witness :
    hashset_lookup (hashset_insert ⟨hash_functions_direct, [5, 9]⟩ 7) 7 = some 7 ∧
    hashset_size (hashset_insert ⟨hash_functions_direct, [5, 9]⟩ 7) = 3 ∧
    hashmap_lookup (hashmap_insert ⟨hash_functions_direct, [(5, 50)]⟩ 7 70) 7
      = some (7, 70) := by
  have h := hashset_insert_lookup ⟨hash_functions_direct, [5, 9]⟩
    ⟨hash_functions_direct, [(5, 50)]⟩ 7 70 (by decide) (by decide) (by decide) (by decide)
  exact ⟨h.1.1, h.1.2.2, h.2.1⟩

/-! ## Deleting a sidecar -/

theorem get_memset0_out (p : List Nat) (off len : Int) (k : Nat)
    (h : ¬ (off ≤ (k : Int) ∧ (k : Int) < off + len)) :
    (memset0 p off len)[k]? = p[k]? := by
  rw [get_memset0]
  by_cases hk : k < p.length
  · rw [if_pos hk, if_neg h, List.getD_eq_getElem?_getD, List.getElem?_eq_getElem hk]
    rfl
  · rw [if_neg hk, List.getElem?_eq_none (by omega)]

theorem get_memset0_in (p : List Nat) (off len : Int) (k : Nat) (hk : k < p.length)
    (h : off ≤ (k : Int) ∧ (k : Int) < off + len) :
    (memset0 p off len)[k]? = some 0 := by
  rw [get_memset0, if_pos hk, if_pos h]

theorem get_sccrelal_old (p : List Nat) (n : Int) (junk : Nat → Nat) (k : Nat)
    (hk : k < p.length) (hn : k < n.toNat) :
    (sccrelal p n junk)[k]? = p[k]? := by
  unfold sccrelal
  rw [get_map_range, if_pos hn, List.getD_eq_getElem?_getD, List.getElem?_eq_getElem hk]
  rfl

theorem get_store_int_out (p : List Nat) (off v : Int) (k : Nat)
    (h : ¬ (off ≤ (k : Int) ∧ (k : Int) < off + 4)) :
    (store_int p off v)[k]? = p[k]? := by
  unfold store_int
  rw [get_map_range]
  by_cases hk : k < p.length
  · rw [if_pos hk, if_neg h, List.getD_eq_getElem?_getD, List.getElem?_eq_getElem hk]
    rfl
  · rw [if_neg hk, List.getElem?_eq_none (by omega)]

theorem stg_need_free (a : Arena) (junk : Nat → Nat → Nat) :
    (stg_need a junk).stg.stg_free = a.stg.stg_free := by
  unfold stg_need for_chain; dsimp only; split_ifs <;> simp

theorem stg_next_free (a : Arena) (n : Int) (junk : Nat → Nat → Nat) :
    (stg_next a n junk).2.stg.stg_free = a.stg.stg_free := by
  unfold stg_next; dsimp only; split_ifs <;> simp [stg_need_free]

theorem stg_next_cleared (a : Arena) (n : Int) (junk : Nat → Nat → Nat) (hn : n ≥ 0)
    (hav : 0 ≤ a.stg.stg_avail)
    (hac : a.stg.stg_avail ≤ a.stg.stg_cleared) (has : a.stg.stg_avail ≤ a.stg.stg_size) :
    (stg_next a n junk).2.stg.stg_cleared = a.stg.stg_avail + n := by
  rcases eq_or_lt_of_le hn with h0 | hpos
  · subst h0
    unfold stg_next
    dsimp only
    split_ifs <;> simp only [] at * <;>
      first
      | omega
      | (rw [stg_clear_noop _ _ _ (by omega)]; simp only []; omega)
  · unfold stg_next stg_need for_chain
    dsimp only
    split_ifs <;> simp only [] at * <;>
      first
      | omega
      | (rw [stg_clear_cleared _ _ _ ⟨by omega, by omega⟩]; simp only [if_true]; omega)

theorem stg_next_base (a : Arena) (n : Int) (junk : Nat → Nat → Nat) (hn : n ≥ 0)
    (hav : 0 ≤ a.stg.stg_avail)
    (hac : a.stg.stg_avail ≤ a.stg.stg_cleared) (has : a.stg.stg_avail ≤ a.stg.stg_size) :
    (stg_next a n junk).2.stg.stg_base = memset0
      (if a.stg.stg_avail + n > a.stg.stg_size
       then sccrelal a.stg.stg_base ((a.stg.stg_avail + n - 1) * 2 * a.stg.stg_dtsize) (junk 0)
       else a.stg.stg_base)
      (a.stg.stg_avail * a.stg.stg_dtsize) (n * a.stg.stg_dtsize) := by
  rcases eq_or_lt_of_le hn with h0 | hpos
  · subst h0
    rw [memset0_nonpos _ _ _ (by simp), if_neg (by omega)]
    unfold stg_next
    dsimp only
    split_ifs <;> simp only [] at * <;>
      first
      | omega
      | (rw [stg_clear_noop _ _ _ (by omega)])
  · unfold stg_next stg_need for_chain
    dsimp only
    split_ifs <;> simp only [] at * <;>
      first
      | omega
      | (have hc : a.stg.stg_cleared = a.stg.stg_avail := by omega
         rw [stg_clear_base _ _ _ ⟨by omega, by omega⟩]
         simp only [hc, add_sub_cancel_left])
      | (rw [stg_clear_base _ _ _ ⟨by omega, by omega⟩]
         simp only [add_sub_cancel_left])

theorem elem_zero_of_bytes (stg : STG) (e : Int) (he : 0 ≤ e) (hdt : 0 ≤ stg.stg_dtsize)
    (h : ∀ k : Nat, e * stg.stg_dtsize ≤ (k : Int) →
      (k : Int) < e * stg.stg_dtsize + stg.stg_dtsize → stg.stg_base[k]? = some 0) :
    elem_zero stg e := by
  refine ⟨he, fun j hj => ?_⟩
  have h0 : 0 ≤ e * stg.stg_dtsize := mul_nonneg he hdt
  exact h _ (by omega) (by omega)

theorem bytes_of_elem_zero (stg : STG) (e : Int) (hdt : 0 ≤ stg.stg_dtsize)
    (h : elem_zero stg e) (k : Nat) (h1 : e * stg.stg_dtsize ≤ (k : Int))
    (h2 : (k : Int) < e * stg.stg_dtsize + stg.stg_dtsize) : stg.stg_base[k]? = some 0 := by
  obtain ⟨he, hz⟩ := h
  have h0 : 0 ≤ e * stg.stg_dtsize := mul_nonneg he hdt
  have := hz (k - (e * stg.stg_dtsize).toNat) (by omega)
  have hk : (e * stg.stg_dtsize).toNat + (k - (e * stg.stg_dtsize).toNat) = k := by omega
  rw [hk] at this
  exact this

theorem load_int_zero (p : List Nat) (off : Int) (hoff : 0 ≤ off)
    (h : ∀ k : Nat, off ≤ (k : Int) → (k : Int) < off + 4 → p[k]? = some 0) :
    load_int p off = 0 := by
  unfold load_int
  rw [List.getD_eq_getElem?_getD, List.getD_eq_getElem?_getD, List.getD_eq_getElem?_getD,
    List.getD_eq_getElem?_getD, h off.toNat (by omega) (by omega),
    h (off + 1).toNat (by omega) (by omega), h (off + 2).toNat (by omega) (by omega),
    h (off + 3).toNat (by omega) (by omega)]
  simp

theorem elem_ok_same (old new : STG) (G G' : List Int) (e : Int) (he : 0 ≤ e)
    (hdt : new.stg_dtsize = old.stg_dtsize) (hdt1 : old.stg_dtsize ≥ 1)
    (hav : old.stg_avail ≤ new.stg_avail) (hG : e ∉ G' → e ∉ G)
    (hb : ∀ k : Nat, e * old.stg_dtsize ≤ (k : Int) →
      (k : Int) < e * old.stg_dtsize + old.stg_dtsize → new.stg_base[k]? = old.stg_base[k]?)
    (h : elem_ok old G e) : elem_ok new G' e := by
  obtain ⟨hz, hl⟩ := h
  constructor
  · intro hn
    apply elem_zero_of_bytes new e he (by omega)
    intro k h1 h2
    rw [hdt] at h1 h2
    rw [hb k h1 h2]
    exact bytes_of_elem_zero old e (by omega) (hz (hG hn)) k h1 h2
  · intro h4
    rw [hdt] at h4 ⊢
    have h0 : 0 ≤ e * old.stg_dtsize := mul_nonneg he (by omega)
    have : load_int new.stg_base (e * old.stg_dtsize) = load_int old.stg_base (e * old.stg_dtsize) := by
      apply load_int_congr _ _ _ h0
      intro k h1 h2
      rw [List.getD_eq_getElem?_getD, List.getD_eq_getElem?_getD, hb k h1 (by omega)]
    rw [this]
    have := hl h4
    omega

theorem elem_ok_zero (new : STG) (G : List Int) (e : Int) (he : 0 ≤ e)
    (hdt1 : new.stg_dtsize ≥ 1) (hav : 1 ≤ new.stg_avail)
    (hb : ∀ k : Nat, e * new.stg_dtsize ≤ (k : Int) →
      (k : Int) < e * new.stg_dtsize + new.stg_dtsize → new.stg_base[k]? = some 0) :
    elem_ok new G e := by
  constructor
  · intro _
    exact elem_zero_of_bytes new e he (by omega) hb
  · intro h4
    have h0 : 0 ≤ e * new.stg_dtsize := mul_nonneg he (by omega)
    rw [load_int_zero _ _ h0 (fun k h1 h2 => hb k h1 (by omega))]
    omega

/-- Bytes of element `e` lie in a buffer that holds `size` elements. -/
theorem elem_byte_in (e size dt : Int) (k : Nat) (hes : e < size)
    (hdt : 1 ≤ dt) (h2 : (k : Int) < e * dt + dt) : k < (size * dt).toNat := by
  have h1 : (e + 1) * dt ≤ size * dt := mul_le_mul_of_nonneg_right (by omega) (by omega)
  have h3 : (e + 1) * dt = e * dt + dt := by ring
  omega

/-- A byte of element `e` lies in the bytes of the elements `[r, r+n)` exactly when
`e` is one of them. -/
theorem elem_byte_range (e r n dt : Int) (k : Int) (hdt : 1 ≤ dt)
    (h1 : e * dt ≤ k) (h2 : k < e * dt + dt) :
    (r * dt ≤ k ∧ k < r * dt + n * dt) ↔ (r ≤ e ∧ e < r + n) := by
  have h3 : r * dt + n * dt = (r + n) * dt := by ring
  rw [h3]
  constructor
  · rintro ⟨a1, a2⟩
    constructor
    · by_contra hc
      have : (e + 1) * dt ≤ r * dt := mul_le_mul_of_nonneg_right (by omega) (by omega)
      have h4 : (e + 1) * dt = e * dt + dt := by ring
      omega
    · by_contra hc
      have : (r + n) * dt ≤ e * dt := mul_le_mul_of_nonneg_right (by omega) (by omega)
      omega
  · rintro ⟨a1, a2⟩
    have b1 : r * dt ≤ e * dt := mul_le_mul_of_nonneg_right a1 (by omega)
    have b2 : (e + 1) * dt ≤ (r + n) * dt := mul_le_mul_of_nonneg_right (by omega) (by omega)
    have h4 : (e + 1) * dt = e * dt + dt := by ring
    omega

/-- The invariant survives `stg_clear` of a range within the capacity. -/
theorem arena_inv_clear (a : Arena) (G : List Int) (start count : Int)
    (hcap : start + count ≤ a.stg.stg_size) (h : arena_inv a G) :
    arena_inv { a with stg := stg_clear a.stg start count } G := by
  by_cases hg : start ≥ 0 ∧ count > 0
  swap
  · rw [stg_clear_noop _ _ _ hg]; exact h
  have hbuf := h.buffer
  unfold buffer_ok at hbuf
  have hcl := stg_clear_cleared a.stg start count hg
  have hbase := stg_clear_base a.stg start count hg
  refine ⟨?_, ?_, ?_, ?_, ?_, ?_, ?_, ?_, ?_⟩
  · simp only [stg_clear_dtsize]; exact h.dtsize_pos
  · unfold buffer_ok
    simp only [stg_clear_length, stg_clear_size, stg_clear_dtsize]; exact hbuf
  · simp only [stg_clear_avail]; exact h.avail_pos
  · simp only [stg_clear_avail]
    rw [hcl]
    have := h.avail_le
    split_ifs <;> omega
  · simp only [stg_clear_size]
    rw [hcl]
    have := h.cleared_le
    split_ifs <;> omega
  · simp only [stg_clear_free]; exact h.free_nonneg
  · simp only [stg_clear_free, stg_clear_avail]; exact h.free_lt
  · simp only [stg_clear_avail]; exact h.released_lt
  · intro e he0 he1
    simp only at he1 ⊢
    by_cases hin : start ≤ e ∧ e < start + count
    · apply elem_ok_zero _ _ _ he0
      · simp only [stg_clear_dtsize]; exact h.dtsize_pos
      · simp only [stg_clear_avail]; exact h.avail_pos
      · intro k h1 h2
        simp only [stg_clear_dtsize] at h1 h2
        rw [hbase]
        apply get_memset0_in
        · rw [hbuf]
          exact elem_byte_in e _ _ k (by omega) h.dtsize_pos h2
        · exact (elem_byte_range e start count _ k h.dtsize_pos h1 h2).2 hin
    · have hlt : e < a.stg.stg_cleared := by
        rw [hcl] at he1
        split_ifs at he1 <;> omega
      apply elem_ok_same a.stg _ G G e he0 (stg_clear_dtsize _ _ _) h.dtsize_pos
        (by simp) (fun x => x) _ (h.elems e he0 hlt)
      intro k h1 h2
      rw [hbase]
      apply get_memset0_out
      intro hc
      exact hin ((elem_byte_range e start count _ k h.dtsize_pos h1 h2).1 hc)

/-- The invariant survives `stg_next` with a count that is not negative. -/
theorem arena_inv_next (a : Arena) (G : List Int) (n : Int) (junk : Nat → Nat → Nat)
    (hn : n ≥ 0) (h : arena_inv a G) : arena_inv (stg_next a n junk).2 G := by
  have hbuf := h.buffer
  unfold buffer_ok at hbuf
  have hdt1 := h.dtsize_pos
  have hav1 := h.avail_pos
  have hac := h.avail_le
  have hcs := h.cleared_le
  have hA := stg_next_avail a n junk
  have hD := stg_next_dtsize a n junk
  have hS := stg_next_size a n junk
  have hF := stg_next_free a n junk
  have hC := stg_next_cleared a n junk hn (by omega) hac (by omega)
  have hB := stg_next_base a n junk hn (by omega) hac (by omega)
  have hlen : (stg_next a n junk).2.stg.stg_base.length
      = ((stg_next a n junk).2.stg.stg_size * a.stg.stg_dtsize).toNat := by
    rw [hB, hS, length_memset0]
    split_ifs
    · rw [length_sccrelal]
    · exact hbuf
  have hsz : a.stg.stg_avail + n ≤ (stg_next a n junk).2.stg.stg_size := by
    rw [hS]; split_ifs <;> omega
  refine ⟨?_, ?_, ?_, ?_, ?_, ?_, ?_, ?_, ?_⟩
  · rw [hD]; exact hdt1
  · unfold buffer_ok; rw [hD]; exact hlen
  · rw [hA]; omega
  · rw [hA, hC]
  · rw [hC]; exact hsz
  · rw [hF]; exact h.free_nonneg
  · rw [hF, hA]; have := h.free_lt; omega
  · intro g hg; rw [hA]; have := h.released_lt g hg; omega
  · intro e he0 he1
    rw [hC] at he1
    by_cases hin : a.stg.stg_avail ≤ e
    · apply elem_ok_zero _ _ _ he0 (by rw [hD]; exact hdt1) (by rw [hA]; omega)
      intro k h1 h2
      rw [hD] at h1 h2
      have hk : k < (stg_next a n junk).2.stg.stg_base.length := by
        rw [hlen]
        exact elem_byte_in e _ _ k (by omega) hdt1 h2
      rw [hB] at hk ⊢
      rw [length_memset0] at hk
      exact get_memset0_in _ _ _ k hk
        ((elem_byte_range e _ n _ k hdt1 h1 h2).2 ⟨hin, he1⟩)
    · apply elem_ok_same a.stg _ G G e he0 hD hdt1 (by rw [hA]; omega) (fun x => x) _
        (h.elems e he0 (by omega))
      intro k h1 h2
      rw [hB, get_memset0_out _ _ _ k
        (fun hc => hin ((elem_byte_range e _ n _ k hdt1 h1 h2).1 hc).1)]
      split_ifs with hgrow
      · apply get_sccrelal_old
        · rw [hbuf]; exact elem_byte_in e _ _ k (by omega) hdt1 h2
        · exact elem_byte_in e _ _ k (by omega) hdt1 h2
      · rfl

/-- The arena `stg_alloc` returns satisfies the invariant. -/
theorem arena_inv_alloc (dtsize size : Int) (name : String) (junk : Nat → Nat) (a : Arena)
    (h : stg_alloc dtsize size name junk = .ok a) : arena_inv a [] := by
  by_cases hg : dtsize > 0 ∧ size > 0
  swap
  · simp [stg_alloc, stg_alloc_base, if_neg hg] at h
  rw [stg_alloc_ok dtsize size name junk hg] at h
  injection h with h
  subst h
  have hcl : (stg_clear (fresh_stg dtsize size name junk) 0 1).stg_cleared = 1 := by
    rw [stg_clear_cleared _ _ _ ⟨by omega, by omega⟩]; simp [fresh_stg]
  have hlen : (stg_clear (fresh_stg dtsize size name junk) 0 1).stg_base.length
      = (size * dtsize).toNat := by
    rw [stg_clear_length]; simp only [fresh_stg, length_sccalloc]; rw [mul_comm]
  refine ⟨?_, ?_, ?_, ?_, ?_, ?_, ?_, ?_, ?_⟩
  · simp only [stg_clear_dtsize, fresh_stg]; omega
  · unfold buffer_ok
    simp only [stg_clear_dtsize, stg_clear_size]
    exact hlen
  · simp [fresh_stg]
  · show _ ≤ (stg_clear (fresh_stg dtsize size name junk) 0 1).stg_cleared
    rw [hcl]; simp [fresh_stg]
  · show (stg_clear (fresh_stg dtsize size name junk) 0 1).stg_cleared ≤ _
    rw [hcl]; simp only [stg_clear_size, fresh_stg]; omega
  · simp [fresh_stg]
  · simp [fresh_stg]
  · intro g hg; simp at hg
  · intro e he0 he1
    simp only [hcl] at he1
    have he : e = 0 := by omega
    subst he
    apply elem_ok_zero _ _ _ (le_refl 0)
    · simp only [stg_clear_dtsize, fresh_stg]; omega
    · simp [fresh_stg]
    · intro k h1 h2
      simp only [stg_clear_dtsize, fresh_stg] at h1 h2
      rw [stg_clear_base _ _ _ ⟨by omega, by omega⟩]
      apply get_memset0_in
      · simp only [fresh_stg, length_sccalloc]
        rw [mul_comm]
        exact elem_byte_in 0 size dtsize k (by omega) (by omega) h2
      · simp only [fresh_stg]; omega

theorem to_size_t_small (dt : Int) (h1 : dt ≥ 1) (h : ¬ dt ≥ sizeof_int) :
    to_size_t dt < sizeof_int := by
  unfold to_size_t sizeof_int at *
  rw [if_neg (by omega)]
  omega

/-- The invariant survives `stg_add_freelist` of an index in `[1, stg_avail)`, which
joins the released elements. -/
theorem arena_inv_add (a : Arena) (G : List Int) (i : Int) (b : Arena)
    (hi1 : 1 ≤ i) (hi2 : i < a.stg.stg_avail) (hb : stg_add_freelist a i = .ok b)
    (hint : a.stg.stg_avail < 2 ^ 31) (h : arena_inv a G) : arena_inv b (i :: G) := by
  have hbuf := h.buffer
  unfold buffer_ok at hbuf
  have hdt1 := h.dtsize_pos
  have hac := h.avail_le
  have hcs := h.cleared_le
  have hf0 := h.free_nonneg
  have hf1 := h.free_lt
  have hdt : a.stg.stg_dtsize ≥ sizeof_int := by
    by_contra hc
    simp [stg_add_freelist, if_pos (to_size_t_small _ hdt1 hc)] at hb
  have hdt4 : a.stg.stg_dtsize ≥ 4 := hdt
  rw [stg_add_freelist_ok a i hdt] at hb
  injection hb with hb
  subst hb
  have hcl : (stg_clear a.stg i 1).stg_cleared = a.stg.stg_cleared := by
    rw [stg_clear_cleared _ _ _ ⟨by omega, by omega⟩]
    split_ifs <;> omega
  have hbase := stg_clear_base a.stg i 1 ⟨by omega, by omega⟩
  obtain ⟨g0, g1, _⟩ := elem_in_buffer i a.stg.stg_size a.stg.stg_dtsize _ hdt4
    (by omega) (by omega) hbuf
  refine ⟨?_, ?_, ?_, ?_, ?_, ?_, ?_, ?_, ?_⟩
  · simp only [stg_clear_dtsize]; exact hdt1
  · unfold buffer_ok
    simp only [stg_clear_dtsize, stg_clear_size, length_store_int, stg_clear_length]
    exact hbuf
  · simp only [stg_clear_avail]; exact h.avail_pos
  · simp only [stg_clear_avail, hcl]; exact hac
  · simp only [stg_clear_size, hcl]; exact hcs
  · simp only []; omega
  · simp only [stg_clear_avail]; exact hi2
  · intro g hg
    simp only [stg_clear_avail]
    rcases List.mem_cons.1 hg with hg | hg
    · omega
    · exact h.released_lt g hg
  · intro e he0 he1
    simp only [hcl] at he1
    by_cases hei : e = i
    · subst hei
      constructor
      · intro hn; exact absurd (List.mem_cons_self _ _) hn
      · intro _
        simp only [stg_clear_dtsize, stg_clear_free, stg_clear_avail]
        rw [load_store_int _ _ _ g0 (by rw [stg_clear_length]; exact g1)
          ⟨by omega, by omega⟩]
        exact ⟨hf0, hf1⟩
    · apply elem_ok_same a.stg _ G (i :: G) e he0 (by simp) hdt1 (by simp)
        (fun hn hm => hn (List.mem_cons_of_mem _ hm)) _ (h.elems e he0 he1)
      intro k h1 h2
      have hdis := elem_disjoint e i a.stg.stg_dtsize k (by omega) hei ⟨h1, h2⟩
      simp only [stg_clear_dtsize]
      rw [get_store_int_out _ _ _ k (fun hc => hdis ⟨hc.1, by omega⟩), hbase,
        get_memset0_out _ _ _ k (fun hc => hdis ⟨hc.1, by omega⟩)]

/-- The invariant survives `stg_next_freelist`; the returned element is no longer
released. -/
theorem arena_inv_pop (a : Arena) (G : List Int) (junk : Nat → Nat → Nat) (r : Int)
    (b : Arena) (hb : stg_next_freelist a junk = .ok (r, b)) (h : arena_inv a G) :
    arena_inv b (G.filter (fun g => decide (g ≠ r))) := by
  have hbuf := h.buffer
  unfold buffer_ok at hbuf
  have hdt1 := h.dtsize_pos
  have hav1 := h.avail_pos
  have hac := h.avail_le
  have hcs := h.cleared_le
  have hf0 := h.free_nonneg
  have hf1 := h.free_lt
  by_cases hfree : a.stg.stg_free = 0
  · have hkeep := stg_next_clear_again a junk (by omega) (by omega)
    simp only [stg_next_freelist, if_pos hfree, hkeep] at hb
    injection hb with hb
    have hr : r = a.stg.stg_avail := by
      rw [← stg_next_fst a 1 junk]
      exact (congrArg Prod.fst hb).symm
    have hb2 : b = (stg_next a 1 junk).2 := (congrArg Prod.snd hb).symm
    have hsame : G.filter (fun g => decide (g ≠ r)) = G := by
      apply List.filter_eq_self.2
      intro g hg
      have := h.released_lt g hg
      simp only [decide_eq_true_eq]
      omega
    rw [hsame, hb2]
    exact arena_inv_next a G 1 junk (by omega) h
  · have hdt : a.stg.stg_dtsize ≥ sizeof_int := by
      by_contra hc
      simp [stg_next_freelist, if_neg hfree, if_pos (to_size_t_small _ hdt1 hc)] at hb
    have hdt4 : a.stg.stg_dtsize ≥ 4 := hdt
    rw [stg_next_freelist_ok a junk hdt hfree] at hb
    injection hb with hb
    have hr : r = a.stg.stg_free := (congrArg Prod.fst hb).symm
    have hb2 := (congrArg Prod.snd hb).symm
    simp only at hb2
    subst hb2
    subst hr
    have hg : a.stg.stg_free ≥ 0 ∧ (1 : Int) > 0 := ⟨hf0, by omega⟩
    have hl := (h.elems a.stg.stg_free hf0 (by omega)).2 hdt4
    refine ⟨?_, ?_, ?_, ?_, ?_, ?_, ?_, ?_, ?_⟩
    · simp only [stg_clear_dtsize]; exact hdt1
    · unfold buffer_ok
      simp only [stg_clear_dtsize, stg_clear_size, stg_clear_length]
      exact hbuf
    · simp only [stg_clear_avail]; exact hav1
    · simp only [stg_clear_avail]
      rw [stg_clear_cleared _ _ _ hg]
      simp only []
      split_ifs <;> omega
    · simp only [stg_clear_size]
      rw [stg_clear_cleared _ _ _ hg]
      simp only []
      split_ifs <;> omega
    · simp only [stg_clear_free]; exact hl.1
    · simp only [stg_clear_free, stg_clear_avail]; exact hl.2
    · intro g hg
      simp only [stg_clear_avail]
      exact h.released_lt g (List.mem_filter.1 hg).1
    · intro e he0 he1
      have he1' : e < a.stg.stg_cleared := by
        rw [stg_clear_cleared _ _ _ hg] at he1
        simp only [] at he1
        split_ifs at he1 <;> omega
      by_cases her : e = a.stg.stg_free
      · subst her
        apply elem_ok_zero _ _ _ he0 (by simp only [stg_clear_dtsize]; exact hdt1)
          (by simp only [stg_clear_avail]; exact hav1)
        intro k h1 h2
        simp only [stg_clear_dtsize] at h1 h2
        rw [stg_clear_base _ _ _ hg]
        apply get_memset0_in
        · simp only []
          rw [hbuf]; exact elem_byte_in _ _ _ k (by omega) hdt1 h2
        · simp only []
          omega
      · apply elem_ok_same a.stg _ G _ e he0 (by simp) hdt1 (by simp) _ _ (h.elems e he0 he1')
        · intro hn hm
          exact hn (List.mem_filter.2 ⟨hm, by simpa using her⟩)
        · intro k h1 h2
          have hdis := elem_disjoint e a.stg.stg_free a.stg.stg_dtsize k (by omega) her ⟨h1, h2⟩
          rw [stg_clear_base _ _ _ hg]
          simp only []
          rw [get_memset0_out _ _ _ k (fun hc => hdis ⟨hc.1, by omega⟩)]

theorem stg_add_freelist_avail (a : Arena) (i : Int) (b : Arena)
    (hb : stg_add_freelist a i = .ok b) : b.stg.stg_avail = a.stg.stg_avail := by
  unfold stg_add_freelist at hb
  split_ifs at hb
  injection hb with hb
  subst hb
  simp

theorem stg_next_freelist_avail (a : Arena) (junk : Nat → Nat → Nat) (r : Int) (b : Arena)
    (hb : stg_next_freelist a junk = .ok (r, b)) :
    b.stg.stg_avail = a.stg.stg_avail ∨ b.stg.stg_avail = a.stg.stg_avail + 1 := by
  unfold stg_next_freelist at hb
  dsimp only at hb
  split_ifs at hb
  · injection hb with hb
    have hb2 := (congrArg Prod.snd hb).symm
    simp only at hb2
    subst hb2
    right
    simp [stg_next_avail]
  · injection hb with hb
    have hb2 := (congrArg Prod.snd hb).symm
    simp only at hb2
    subst hb2
    left
    simp

/-- Every reachable state whose length is an `int` satisfies the invariant. -/
theorem reachable_inv (a : Arena) (G : List Int) (hr : Reachable a G) :
    a.stg.stg_avail < 2 ^ 31 → arena_inv a G := by
  induction hr with
  | alloc dtsize size name junk a h => exact fun _ => arena_inv_alloc dtsize size name junk a h
  | next a G count junk _ hn ih =>
    intro hint
    rw [stg_next_avail] at hint
    exact arena_inv_next a G count junk hn (ih (by omega))
  | clear a G start count _ hcap ih =>
    intro hint
    simp only [stg_clear_avail] at hint
    exact arena_inv_clear a G start count hcap (ih hint)
  | clear_all a G _ ih =>
    intro hint
    unfold stg_clear_all at hint ⊢
    simp only [stg_clear_avail] at hint
    have h := ih hint
    have := h.avail_le
    have := h.cleared_le
    exact arena_inv_clear a G 0 _ (by omega) h
  | next_freelist a G junk r b _ hb ih =>
    intro hint
    have := stg_next_freelist_avail a junk r b hb
    exact arena_inv_pop a G junk r b hb (ih (by omega))
  | add_freelist a G i b _ hi1 hi2 hb ih =>
    intro hint
    rw [stg_add_freelist_avail a i b hb] at hint
    exact arena_inv_add a G i b hi1 hi2 hb hint (ih hint)

/-! ## The cleared prefix in the reachable states -/

theorem release_arena1_reachable : Reachable release_arena1 [1] :=
  Reachable.add_freelist (stg_next release_arena0 2 scenario_junk).2 [] 1 release_arena1
    (Reachable.next release_arena0 [] 2 scenario_junk
      (Reachable.alloc 8 4 "sym" (fun _ => 7) release_arena0 rfl) (by decide))
    (by decide) (by decide) rfl

theorem released_arena_reachable : Reachable released_arena [2, 1] :=
  Reachable.add_freelist release_arena1 [1] 2 released_arena release_arena1_reachable
    (by decide) (by decide) rfl

/-- C16: in every arena state reachable from `stg_alloc` by `stg_next` with count at
least 0, `stg_clear(start, count)` with `start + count ≤ stg_size`, `stg_clear_all`,
`stg_next_freelist`, and `stg_add_freelist` of indices in `[1, stg_avail)`, with
`stg_avail` an `int`, the fields satisfy `0 ≤ stg_avail` and
`0 ≤ stg_cleared ≤ max(stg_avail, stg_size)`. -/
theorem stg_cleared_bounds (a : Arena) (released : List Int)
    (hr : Reachable a released) (hint : is_int a.stg.stg_avail) :
    0 ≤ a.stg.stg_avail ∧ 0 ≤ a.stg.stg_cleared ∧
    a.stg.stg_cleared ≤ max a.stg.stg_avail a.stg.stg_size := by
  have h := reachable_inv a released hr hint.2
  have h1 := h.avail_pos
  have h2 := h.avail_le
  have h3 := h.cleared_le
  exact ⟨by omega, by omega, le_trans h3 (le_max_right _ _)⟩

/-- Witness of C16 on `released_arena`, where `stg_avail = 3`, `stg_cleared = 3` and
`stg_size = 4`. -/
theorem stg_cleared_bounds_witness :
    Reachable released_arena [2, 1] ∧ is_int released_arena.stg.stg_avail ∧
    0 ≤ released_arena.stg.stg_avail ∧ 0 ≤ released_arena.stg.stg_cleared ∧
    released_arena.stg.stg_cleared
      ≤ max released_arena.stg.stg_avail released_arena.stg.stg_size :=
  ⟨released_arena_reachable, by decide,
    stg_cleared_bounds released_arena [2, 1] released_arena_reachable (by decide)⟩

end Flang
